import Mathlib

/-!
Verification development for the `run-verify` step-sequencing harness
(`src/lib/index.js`).  The JavaScript engine runs an ordered list of check
functions, threading a result value through them, and reports success or the
first failure to a single completion point (`done`).  This file gives a
shallow embedding of the engine — values, errors, the step classifier
(`detectWantCallbackByParamName`), the sequencer (`invokeCheckFunc`), the
completion path (`invokeFinally` / `invokeDone`), the timeout directive
handling, and the bare-defer bookkeeping (`addDefer` / `onDefer`) — and
proves properties of the embedded definitions.

Asynchrony is embedded by making each check function's dynamic behaviour an
explicit description (`FnBody`): synchronous return, throw, settled promise,
continuation call, or never settling.  The engine's observable behaviour is
recorded as a trace of actions (function invocations with their argument
shapes, timer arming/disarming, timer expiry, completion-handler calls, and
the double-completion assertion).
-/

namespace RunVerify

/-- A JavaScript `Error` object, modelled by its message (the engine only
ever reads and rewrites `message`; `errorMsg` in the source mutates the
message of the error captured at the entry call). -/
structure JsError where
  message : String
deriving DecidableEq, Repr

mutual
/-- JavaScript values threaded between check functions:  `undefined`,
strings, numbers, arrays, and `Error` objects. -/
inductive Val where
  | undef : Val
  | str : String → Val
  | num : Int → Val
  | list : ValList → Val
  | error : JsError → Val
deriving DecidableEq, Repr
/-- A JavaScript array of values (spelled out so equality stays
decidable). -/
inductive ValList where
  | nil : ValList
  | cons : Val → ValList → ValList
deriving DecidableEq, Repr
end

/-- Build a `ValList` from a Lean list. -/
def ValList.ofList : List Val → ValList
  | [] => .nil
  | v :: vs => .cons v (ValList.ofList vs)

/-- JavaScript truthiness for the values of `Val` (arrays and `Error`
objects are truthy). -/
def truthy : Val → Bool
  | .undef => false
  | .str s => !s.isEmpty
  | .num n => n != 0
  | .list _ => true
  | .error _ => true

/-- Whether `pat` occurs at the start of `s` (character lists). -/
def listStarts : List Char → List Char → Bool
  | _, [] => true
  | [], _ :: _ => false
  | a :: as, b :: bs => a == b && listStarts as bs

/-- Whether `pat` occurs anywhere in `s` (character lists); models
JavaScript `s.indexOf(pat) >= 0`. -/
def listHasSub (pat : List Char) : List Char → Bool
  | [] => listStarts [] pat
  | a :: as => listStarts (a :: as) pat || listHasSub pat as

/-- `s.indexOf(pat) >= 0` on strings: `pat` is a substring of `s`. -/
def strHasSub (s pat : String) : Bool :=
  listHasSub pat.data s.data

/-- ASCII whitespace, for `String.prototype.trim`. -/
def isSpaceChar (c : Char) : Bool :=
  c == ' ' || c == '\t' || c == '\n' || c == '\r'

/-- `params.trim()` on a character list. -/
def trimChars (l : List Char) : List Char :=
  ((l.dropWhile isSpaceChar).reverse.dropWhile isSpaceChar).reverse

/-- `toLowerCase` on one character (ASCII, which covers JavaScript
identifier parameter names). -/
def lowerChar (c : Char) : Char :=
  if 65 ≤ c.toNat ∧ c.toNat ≤ 90 then Char.ofNat (c.toNat + 32) else c

/-- What `checkFunc.toString()` reveals to the parameter-name heuristic:
whether the source contains a fat arrow past position 0, whether it starts
with `()` or with `(`, the text before the arrow, and the first
parenthesised group (none when the regex `^[^(]*(([^)]+))` fails to
match). -/
structure FnSrc where
  hasFatArrow : Bool
  startsParens0 : Bool
  startsParen : Bool
  beforeArrow : String
  parenGroup : Option String
deriving Repr

/-- The dynamic behaviour of one check-function call on a given first
argument: return a plain value, throw, return a settled promise, invoke the
continuation `next(err, r)`, or never settle / never call `next`. -/
inductive FnBody where
  | ret : Val → FnBody
  | thr : JsError → FnBody
  | promiseRes : Val → FnBody
  | promiseRej : JsError → FnBody
  | nextOk : Val → FnBody
  | nextErr : JsError → FnBody
  | never : FnBody

/-- A check function: declared parameter count (`Function.length`), whether
it is a native `AsyncFunction`, what its source text reveals, and its
behaviour as a function of the first argument it is invoked with. -/
structure CheckFn where
  arity : Nat
  isAsync : Bool
  src : FnSrc
  body : Val → FnBody

/-- Error-expectation modes attached by `expectError` /
`expectErrorHas` / `expectErrorToBe` (`wrap._expectError`). -/
inductive ExpectMode where
  | noneE : ExpectMode
  | anyE : ExpectMode
  | has : String → ExpectMode
  | toBe : String → ExpectMode
deriving DecidableEq, Repr

/-- A step descriptor.  `isWrapped` models `hasOwnProperty(WRAPPED_FN)`:
when false, the engine reads the flags from an empty object, so the flag
fields are ignored (see `flagsOf`).  `isFinally` models the `IS_FINALLY`
symbol set by `runFinally`. -/
structure Wrap where
  fn : CheckFn
  isWrapped : Bool := false
  isFinally : Bool := false
  onFailVerify : Bool := false
  timeoutMs : Option Nat := none
  expectErr : ExpectMode := .noneE
  withCallback : Bool := false

/-- An argument to the entry points: a (possibly wrapped) check function, or
a non-function value (`typeof checkFunc !== "function"`).  A non-function
value carries the `typeof` string and the numeric value of its `.length`
property — `invokeDone` reads `done.length` off the raw terminal argument
(for example `"oops".length` is `4`); a value whose `.length` is
`undefined` is recorded as `0`, since `undefined > 1` and `0 > 1` are both
false. -/
inductive Entry where
  | check : Wrap → Entry
  | nonFn : String → Nat → Entry

/-- `x[IS_FINALLY] === true` on an entry-point argument. -/
def isFinallyEntry : Entry → Bool
  | .check w => w.isFinally
  | .nonFn _ _ => false

/-- The flags the sequencer sees for a step: the wrap itself when the step
carries `WRAPPED_FN`, otherwise the defaults (`let wrap = {}` in the
source). -/
def flagsOf (w : Wrap) : Wrap :=
  if w.isWrapped then w else { fn := w.fn }

/-- `detectWantCallbackByParamName` from the source: extract the parameter
text (before a fat arrow for arrow functions not of the form `(x) => ...`,
otherwise the first parenthesised group), lowercase it, and test for the
conventional continuation-callback name prefixes.  When the regex fails the
source reports an error naming the step index (modelled by `none`). -/
def detectWantCallbackByParamName (src : FnSrc) : Option Bool :=
  let params? : Option String :=
    if src.hasFatArrow && (src.startsParens0 || !src.startsParen) then
      some src.beforeArrow
    else
      src.parenGroup
  match params? with
  | none => none
  | some p =>
    let q := (trimChars p.data).map lowerChar
    some (listStarts q "next".data || listStarts q "cb".data
      || listStarts q "callback".data || listStarts q "done".data)

/-- Shape of the argument list a step is invoked with. -/
inductive CallArgs where
  | noArgs : CallArgs
  | resOnly : Val → CallArgs
  | cbOnly : CallArgs
  | resAndCb : Val → CallArgs
deriving DecidableEq, Repr

/-- Observable actions of a run, in order: timer arming/disarming
(`setTimeout`/`clearTimeout` on the run-timeout timer), step invocations
with their argument shapes, failure-hook and finally-hook invocations,
timer expiry, completion-handler calls (with the error slot and the result
argument when one is passed), the double-completion assertion, and an
exception escaping a timer callback. -/
inductive Action where
  | arm : Nat → Action
  | disarm : Action
  | invoke : Nat → CallArgs → Action
  | invokeFailHook : Nat → Action
  | invokeFinallyCb : Nat → Action
  | timerFire : Nat → Action
  | callDone : Option JsError → Option Val → Action
  | assertFail : String → Action
  | uncaught : JsError → Action
deriving DecidableEq, Repr

/-- The fixed parts of one run: the ordered non-finally check steps (the
terminal `done` excluded), the finally-hook steps in declaration order,
`done.length` (the value of the terminal argument's `.length` property,
read before the completion call), and whether the terminal argument is
actually callable — `done` is the raw last non-finally argument
(`checkFuncs[lastIx]`), so a wrap object or a non-function value makes the
`done(...)` call in `invokeDone` throw a `TypeError`. -/
structure Cfg where
  steps : List Entry
  fin : List Entry
  doneArity : Nat
  doneCallable : Bool

/-- The mutable run context: the latched terminal failure (`failError`), the
`completed` guard, whether a programming-error assertion has fired
(`crashed` — the JavaScript assertion is an exception that aborts
everything after it), the armed run-timeout timer (bound and the directive
wrap whose optional function runs at expiry), and the action trace. -/
structure St where
  failError : Option JsError := none
  completed : Bool := false
  crashed : Bool := false
  timer : Option (Nat × Wrap) := none
  acts : List Action := []

/-- The outcome of calling a finally hook with no arguments: a plain return
value, a synchronous throw, a settled awaitable, or a never-settling
awaitable. -/
inductive FinOutcome where
  | value : Val → FinOutcome
  | syncThrow : JsError → FinOutcome
  | awaitRes : Val → FinOutcome
  | awaitRej : JsError → FinOutcome
  | awaitHang : FinOutcome
deriving DecidableEq, Repr

/-- The `TypeError` raised when a function body tries to call a
continuation it was never given. -/
def typeErr : JsError := ⟨"next is not a function"⟩

/-- Interpret a function body in the zero-argument finally-hook calling
context (`wrap[WRAPPED_FN]()`): a body that would call a continuation
throws, since no continuation was passed. -/
def finOutcome : FnBody → FinOutcome
  | .ret v => .value v
  | .thr e => .syncThrow e
  | .promiseRes v => .awaitRes v
  | .promiseRej e => .awaitRej e
  | .nextOk _ => .syncThrow typeErr
  | .nextErr _ => .syncThrow typeErr
  | .never => .awaitHang

/-- JavaScript truthiness of a pushed finally-hook call result
(`returnFinallyCbs.filter(x => x)`): awaitables are objects, hence
truthy. -/
def truthyOut : FinOutcome → Bool
  | .value v => truthy v
  | _ => true

/-- The wrap of an entry (finally entries are always wraps; the fallback is
unreachable through the filter in `invokeFinallyModel`). -/
def wrapOf : Entry → Wrap
  | .check w => w
  | .nonFn _ _ =>
    { fn := { arity := 0, isAsync := false,
              src := { hasFatArrow := false, startsParens0 := false, startsParen := false,
                       beforeArrow := "", parenGroup := none },
              body := fun _ => .ret .undef } }

/-- `finallyCbs.forEach(wrap => returnFinallyCbs.push(wrap[WRAPPED_FN]()))`:
invoke the hooks in declaration order, collecting the pushed call results;
a synchronous throw aborts the loop (remaining hooks are not started) and
becomes the caught error. -/
def runFin : List Entry → Nat → List Action × List FinOutcome × Option JsError
  | [], _ => ([], [], none)
  | e :: rest, i =>
    match finOutcome ((wrapOf e).fn.body .undef) with
    | .syncThrow e2 => ([.invokeFinallyCb i], [], some e2)
    | out =>
      let r := runFin rest (i + 1)
      (.invokeFinallyCb i :: r.1, out :: r.2.1, r.2.2)

/-- The error `Promise.all` rejects with: the first rejecting awaitable in
order. -/
def firstRej : List FinOutcome → Option JsError
  | [] => none
  | .awaitRej e :: _ => some e
  | _ :: rest => firstRej rest

/-- Whether any awaitable in the collection never settles (then
`Promise.all` never settles and `done` is never called). -/
def hasHang (l : List FinOutcome) : Bool :=
  l.any fun o => match o with
    | .awaitHang => true
    | _ => false

/-- The `TypeError` raised when `invokeDone` calls a terminal argument that
is not a function. -/
def doneTypeErr : JsError := ⟨"done is not a function"⟩

/-- `invokeDone` from the source: clear the run-timeout timer, then call
`done(error, result)` when `done.length > 1` and `done(error)` otherwise.
When the terminal argument is not callable, both call forms throw a
`TypeError` after the timer has been cleared: no completion-handler call
happens, the exception escapes the engine (synchronously through the entry
call when completion is synchronous, otherwise in the asynchronous context
— a timer callback or an unhandled promise rejection), and nothing runs
after it. -/
def invokeDoneModel (cfg : Cfg) (st : St) (err : Option JsError) (result : Val) : St :=
  if cfg.doneCallable then
    { st with timer := none,
              acts := st.acts ++
                [.disarm, .callDone err (if cfg.doneArity > 1 then some result else none)] }
  else
    { st with timer := none, crashed := true,
              acts := st.acts ++ [.disarm, .uncaught doneTypeErr] }

/-- Lines 128-137 of the source: when the run failed and the step at the
live index is wrapped with `_onFailVerify`, invoke it with the error; a
throw from it replaces the error. -/
def onFailObserve (cfg : Cfg) (index : Nat) (err : Option JsError) :
    Option JsError × List Action :=
  match err, cfg.steps[index]? with
  | some e, some (.check w) =>
    if w.isWrapped && w.onFailVerify then
      match w.fn.body (.error e) with
      | .thr e2 => (some e2, [Action.invokeFailHook index])
      | _ => (some e, [Action.invokeFailHook index])
    else (some e, [])
  | _, _ => (err, [])

/-- Lines 139-165 of the source: run the finally hooks (a synchronous
throw replaces the error and stops the rest), collect the pushed call
results (filtered for truthiness unless the loop aborted), and either call
`done` directly or await the collection with
`Promise.all(...).catch(err2 => { if (!error) error = err2 }).then(invokeDone)`.
`Promise.all` rejects eagerly: as soon as any awaitable rejects, the
rejection is adopted only when no error is latched and `done` runs, even if
another awaitable never settles; only a collection with no rejection and at
least one never-settling awaitable leaves `done` uninvoked. -/
def finishRun (cfg : Cfg) (st : St) (error1 : Option JsError) (result : Val) : St :=
  let finRes := runFin cfg.fin 0
  let pushed := finRes.2.1
  let abortErr := finRes.2.2
  let error2 := match abortErr with
    | some e2 => some e2
    | none => error1
  let used := match abortErr with
    | some _ => pushed
    | none => pushed.filter truthyOut
  let st := { st with acts := st.acts ++ finRes.1 }
  if used.isEmpty then
    invokeDoneModel cfg st error2 result
  else
    match firstRej used with
    | some e2 =>
      let error3 := match error2 with
        | some e => some e
        | none => some e2
      invokeDoneModel cfg st error3 result
    | none =>
      if hasHang used then st
      else invokeDoneModel cfg st error2 result

/-- `invokeFinally` from the source.  `index` is the live step index at the
time of the call (used to look up a failure hook).  On a second call the
`assert(!completed)` trips: the assertion error is raised and nothing else
runs (`crashed`), in particular `done` is not invoked.  Otherwise the
`completed` guard flips, a failure hook right at `index` may observe (and
by throwing replace) the error, and the finally hooks and the completion
notifier run (`finishRun`). -/
def invokeFinallyModel (cfg : Cfg) (st : St) (index : Nat) (err : Option JsError)
    (result : Val) : St :=
  if st.crashed then st
  else if st.completed then
    { st with crashed := true,
              acts := st.acts ++ [.assertFail "bug: invokeFinally already called"] }
  else
    let st := { st with completed := true,
                        failError := err.map (fun (e : JsError) => JsError.mk e.message) }
    let hookRes := onFailObserve cfg index err
    finishRun cfg { st with acts := st.acts ++ hookRes.2 } hookRes.1 result

/-- What happens when a step neither settles nor calls its continuation:
the run suspends; if the run-timeout timer is armed it expires, latching
the timeout failure (the message uses the live index), invoking the
directive's wrapped function with the failure, then completing the run.  A
throw from the directive's function escapes the timer callback uncaught. -/
def suspendModel (cfg : Cfg) (st : St) (index : Nat) : St :=
  match st.timer with
  | none => st
  | some (ms, dirW) =>
    let fe : JsError :=
      ⟨s!"runVerify: test timeout after {ms}ms while waiting for run check function number {index + 1}"⟩
    let st := { st with failError := some fe, acts := st.acts ++ [.timerFire ms] }
    match dirW.fn.body (.error fe) with
    | .thr e2 => { st with crashed := true, acts := st.acts ++ [.uncaught e2] }
    | _ => invokeFinallyModel cfg st index (some fe) Val.undef

/-- The expected-message check of `invokeWithExpectError`:  `some e2` means
the check failed and the run fails with `e2`; `none` means the error is
forwarded to the next step as its result. -/
def expectCheckOutcome (mode : ExpectMode) (e : JsError) : Option JsError :=
  match mode with
  | .has m =>
    if !(strHasSub e.message m) then
      some ⟨s!"runVerify expecting error with message has '{m}'"⟩
    else none
  | .toBe m =>
    if e.message ≠ m then
      some ⟨s!"runVerify expecting error with message to be '{m}'"⟩
    else none
  | _ => none

/-- `failExpectError`: the failure raised when an expect-error step did not
produce an error; `prevIndex` is the 0-based index of the step. -/
def failExpectErrorMsg (prevIndex : Nat) : JsError :=
  ⟨s!"runVerify expecting error from check function number {prevIndex}"⟩

/-- Aftermath of a parameter-name parse failure
(`runVerify param N unable to match arg name`): the heuristic has already
reported through `done`, but classification falls through with `cbNext`
unset, so the step is still invoked synchronously.  With `failError`
latched a plain result goes nowhere, but an error outcome reaches
`invokeFinally` again and trips the double-completion assertion; a
never-settling outcome leaves the run suspended, where a still-armed timer
(left live by a hanging finally collection) can fire. -/
def afterParseFail (cfg : Cfg) (st : St) (index : Nat) (fn : CheckFn) (prev : Val)
    (wantResult : Bool) (flags : Wrap) : St :=
  let expErr := flags.expectErr ≠ .noneE
  let args := if wantResult then CallArgs.resOnly prev else CallArgs.noArgs
  let input := if wantResult then prev else Val.undef
  let st := { st with acts := st.acts ++ [.invoke index args] }
  let wee := fun (stx : St) (er : JsError) =>
    match expectCheckOutcome flags.expectErr er with
    | some e2 => invokeFinallyModel cfg stx (index + 1) (some e2) .undef
    | none => stx
  match fn.body input with
  | .thr er =>
    if expErr then wee st er else invokeFinallyModel cfg st (index + 1) (some er) .undef
  | .promiseRej er =>
    if expErr then wee st er else invokeFinallyModel cfg st (index + 1) (some er) .undef
  | .ret _ =>
    if expErr then
      invokeFinallyModel cfg st (index + 1) (some (failExpectErrorMsg index)) .undef
    else st
  | .promiseRes _ =>
    if expErr then
      invokeFinallyModel cfg st (index + 1) (some (failExpectErrorMsg index)) .undef
    else st
  | .nextOk _ =>
    if expErr then wee st typeErr
    else invokeFinallyModel cfg st (index + 1) (some typeErr) .undef
  | .nextErr _ =>
    if expErr then wee st typeErr
    else invokeFinallyModel cfg st (index + 1) (some typeErr) .undef
  | .never => suspendModel cfg st (index + 1)

/-- `invokeCheckFunc` from the source, as a recursion over the remaining
check steps (the index increases by one per consumed entry, so the
recursion is structural).  Each case mirrors the source: the latched
`failError` stops everything; at the end of the list the run completes with
the threaded result; a failure hook is skipped; a timeout directive
(re)arms the timer and advances; a non-function fails the run; otherwise
the step is classified (native async first, then arity `> 1`, then the
forced-callback flag, then the parameter-name heuristic) and invoked, with
expect-error decoration inverting its success criterion. -/
def loop (cfg : Cfg) : List Entry → Nat → Val → St → St
  | [], index, prev, st =>
    if st.crashed then st
    else if st.failError.isSome then st
    else invokeFinallyModel cfg st index none prev
  | e :: rest, index, prev, st =>
    if st.crashed then st
    else if st.failError.isSome then st
    else
      match e with
      | .nonFn tof _ =>
        invokeFinallyModel cfg st index
          (some ⟨s!"runVerify param {index} is not a function: type {tof}"⟩) .undef
      | .check w =>
        let flags := flagsOf w
        if w.isWrapped && flags.onFailVerify then
          loop cfg rest (index + 1) prev st
        else if w.isWrapped && flags.timeoutMs.isSome then
          let ms := flags.timeoutMs.getD 0
          loop cfg rest (index + 1) prev
            { st with timer := some (ms, w), acts := st.acts ++ [.disarm, .arm ms] }
        else
          let fn := w.fn
          let wantResult0 := fn.arity > 0
          let cls : Option (Bool × Bool) :=
            if fn.isAsync then some (false, wantResult0)
            else if fn.arity > 1 then some (true, wantResult0)
            else if flags.withCallback then some (true, false)
            else
              match detectWantCallbackByParamName fn.src with
              | some true => some (true, false)
              | some false => some (false, wantResult0)
              | none => none
          match cls with
          | none =>
            let st1 := invokeFinallyModel cfg st index
              (some ⟨s!"runVerify param {index} unable to match arg name"⟩) .undef
            afterParseFail cfg st1 index fn prev wantResult0 flags
          | some (cbNext, wantResult) =>
            let expErr := flags.expectErr ≠ .noneE
            let wee := fun (stx : St) (er : JsError) =>
              match expectCheckOutcome flags.expectErr er with
              | some e2 => invokeFinallyModel cfg stx (index + 1) (some e2) .undef
              | none => loop cfg rest (index + 1) (.error er) stx
            if cbNext then
              let args := if wantResult then CallArgs.resAndCb prev else CallArgs.cbOnly
              let input := if wantResult then prev else Val.undef
              let st := { st with acts := st.acts ++ [.invoke index args] }
              match fn.body input with
              | .nextOk v =>
                if expErr then
                  invokeFinallyModel cfg st (index + 1)
                    (some (failExpectErrorMsg index)) .undef
                else loop cfg rest (index + 1) v st
              | .nextErr er =>
                if expErr then wee st er
                else invokeFinallyModel cfg st (index + 1) (some er) .undef
              | .thr er =>
                if expErr then wee st er
                else invokeFinallyModel cfg st (index + 1) (some er) .undef
              | _ => suspendModel cfg st (index + 1)
            else
              let args := if wantResult then CallArgs.resOnly prev else CallArgs.noArgs
              let input := if wantResult then prev else Val.undef
              let st := { st with acts := st.acts ++ [.invoke index args] }
              match fn.body input with
              | .thr er =>
                if expErr then wee st er
                else invokeFinallyModel cfg st (index + 1) (some er) .undef
              | .ret v =>
                if expErr then
                  invokeFinallyModel cfg st (index + 1)
                    (some (failExpectErrorMsg index)) .undef
                else loop cfg rest (index + 1) v st
              | .promiseRes v =>
                if expErr then
                  invokeFinallyModel cfg st (index + 1)
                    (some (failExpectErrorMsg index)) .undef
                else loop cfg rest (index + 1) v st
              | .promiseRej er =>
                if expErr then wee st er
                else invokeFinallyModel cfg st (index + 1) (some er) .undef
              | .nextOk _ =>
                if expErr then wee st typeErr
                else invokeFinallyModel cfg st (index + 1) (some typeErr) .undef
              | .nextErr _ =>
                if expErr then wee st typeErr
                else invokeFinallyModel cfg st (index + 1) (some typeErr) .undef
              | .never => suspendModel cfg st (index + 1)

/-- The value of an entry's `.length` property, as read by `invokeDone` on
the raw terminal argument: a plain function's declared parameter count; a
wrap object's `.length` is `undefined` (recorded as `0`, which compares
with `> 1` the same way); a non-function value carries its own recorded
`.length`. -/
def doneArityOfEntry : Entry → Nat
  | .check w => if w.isWrapped then 0 else w.fn.arity
  | .nonFn _ len => len

/-- Whether an entry is actually callable when used as the terminal
`done`: only a plain (unwrapped) function is; calling a wrap object or a
non-function value throws a `TypeError`. -/
def doneCallableOfEntry : Entry → Bool
  | .check w => !w.isWrapped
  | .nonFn _ _ => false

/-- Build the run context from the entry-point arguments: the finally
entries are filtered out, the last remaining entry is the terminal
handler. -/
def mkCfg (args : List Entry) : Cfg :=
  let checkFuncs := args.filter fun x => !isFinallyEntry x
  { steps := checkFuncs.dropLast,
    fin := args.filter fun x => isFinallyEntry x,
    doneArity :=
      match checkFuncs.getLast? with
      | some e => doneArityOfEntry e
      | none => 0,
    doneCallable :=
      match checkFuncs.getLast? with
      | some e => doneCallableOfEntry e
      | none => true }

/-- The terminal handler's declared arity for an argument list. -/
def doneArityOf (args : List Entry) : Nat := (mkCfg args).doneArity

/-- Whether the terminal handler of an argument list is an actual (plain)
function. -/
def doneCallableOf (args : List Entry) : Bool := (mkCfg args).doneCallable

/-- `runVerify(...args)`: with fewer than two non-finally entries the
configuration error is thrown synchronously out of the entry call;
otherwise the run executes and the action trace is returned. -/
def runVerifyModel (args : List Entry) : Except JsError (List Action) :=
  let checkFuncs := args.filter fun x => !isFinallyEntry x
  if checkFuncs.length < 2 then
    .error ⟨"runVerify - must pass done function"⟩
  else
    let cfg := mkCfg args
    .ok (loop cfg cfg.steps 0 .undef {}).acts

/-- The completion-handler calls in a trace, each with its error slot and
the result argument when one was passed. -/
def doneCalls (t : List Action) : List (Option JsError × Option Val) :=
  t.filterMap fun a =>
    match a with
    | .callDone e r => some (e, r)
    | _ => none

/-- Number of completion-handler invocations in a trace. -/
def countDone (t : List Action) : Nat := (doneCalls t).length

/-- Settlement of the promise returned by `asyncVerify`. -/
inductive PromiseOutcome where
  | resolved : Val → PromiseOutcome
  | rejected : JsError → PromiseOutcome
  | pending : PromiseOutcome
deriving DecidableEq, Repr

/-- The two-parameter settlement callback `(err, res) => err ? reject(err)
: resolve(res)` that `asyncVerify` appends as the terminal handler. -/
def asyncDone : Entry :=
  .check { fn := { arity := 2, isAsync := false,
                   src := { hasFatArrow := true, startsParens0 := false, startsParen := true,
                            beforeArrow := "(err, res) ", parenGroup := some "err, res" },
                   body := fun _ => .ret .undef } }

/-- `asyncVerify(...args)`: runs `_runVerify` with the settlement callback
appended inside a promise executor, so a synchronous throw (the
configuration error) becomes a rejection, the handler's error slot becomes
a rejection, and a successful completion resolves the promise. -/
def asyncVerifyModel (args : List Entry) : PromiseOutcome :=
  match runVerifyModel (args ++ [asyncDone]) with
  | .error e => .rejected e
  | .ok t =>
    match doneCalls t with
    | [] => .pending
    | (some e, _) :: _ => .rejected e
    | (none, r) :: _ => .resolved (r.getD .undef)

/-- Source text of a zero-parameter arrow function `() => ...`. -/
def arrowSrc0 : FnSrc :=
  { hasFatArrow := true, startsParens0 := true, startsParen := true,
    beforeArrow := "() ", parenGroup := none }

/-- Source text of an unparenthesised one-parameter arrow function
`p => ...`. -/
def arrowSrc1 (p : String) : FnSrc :=
  { hasFatArrow := true, startsParens0 := false, startsParen := false,
    beforeArrow := p ++ " ", parenGroup := none }

/-- Source text of a parenthesised-parameter arrow function
`(ps) => ...`. -/
def arrowSrcP (ps : String) : FnSrc :=
  { hasFatArrow := true, startsParens0 := false, startsParen := true,
    beforeArrow := "(" ++ ps ++ ") ", parenGroup := some ps }

/-- Source text of a classic `function (ps) { ... }` with no fat arrow in
its body; `ps = none` models an empty parameter list, on which the
parameter-extraction regex fails. -/
def classicSrc (ps : Option String) : FnSrc :=
  { hasFatArrow := false, startsParens0 := false, startsParen := false,
    beforeArrow := "", parenGroup := ps }

/-- An undecorated (non-wrapped) check function. -/
def plainFn (arity : Nat) (src : FnSrc) (body : Val → FnBody) : Entry :=
  .check { fn := { arity := arity, isAsync := false, src := src, body := body } }

/-- An undecorated native-async check function (always returns a
promise). -/
def asyncFn (arity : Nat) (body : Val → FnBody) : Entry :=
  .check { fn := { arity := arity, isAsync := true, src := arrowSrc0, body := body } }

/-- A terminal handler of the given declared arity (its own behaviour is
outside the engine; only its arity matters). -/
def doneFn (arity : Nat) : Entry :=
  plainFn arity (arrowSrcP "err, res") (fun _ => .ret .undef)

/-- `runFinally(fn)`: a wrap carrying `IS_FINALLY`. -/
def runFinallyFn (body : Val → FnBody) : Entry :=
  .check { fn := { arity := 0, isAsync := false, src := arrowSrc0, body := body },
           isWrapped := true, isFinally := true }

/-- `runTimeout(delay, fn)`: a wrap carrying `_timeout` (and the optional
function run at expiry, `() => {}` when omitted). -/
def runTimeoutFn (delay : Nat) (body : Val → FnBody) : Entry :=
  .check { fn := { arity := 0, isAsync := false, src := arrowSrc0, body := body },
           isWrapped := true, timeoutMs := some delay }

/-- `expectError(fn)` / `expectErrorHas` / `expectErrorToBe`: a wrap
carrying `_expectError`. -/
def expectErrorFn (mode : ExpectMode) (arity : Nat) (src : FnSrc)
    (body : Val → FnBody) : Entry :=
  .check { fn := { arity := arity, isAsync := false, src := src, body := body },
           isWrapped := true, expectErr := mode }

/-- `onFailVerify(fn)`: a wrap carrying `_onFailVerify`. -/
def onFailVerifyFn (body : Val → FnBody) : Entry :=
  .check { fn := { arity := 0, isAsync := false, src := arrowSrc0, body := body },
           isWrapped := true, onFailVerify := true }

/-- The trace of a run that passed the configuration check (empty for a
rejected configuration). -/
def traceOf (args : List Entry) : List Action :=
  match runVerifyModel args with
  | .ok t => t
  | .error _ => []

/-- Disarm placement check on a trace: every `disarm` of the run-timeout
timer is immediately followed by a completion-path event inside the same
engine operation — re-arming (a new timeout directive replacing the live
timer), the completion-handler call, or the `TypeError` escaping when the
completion call finds a non-callable terminal argument (both of the latter
inside `invokeDone`, right after its `clearTimeout`) — never by an
ordinary step advance. -/
def okDis : List Action → Bool
  | [] => true
  | .disarm :: rest =>
    (match rest with
     | .arm _ :: _ => okDis rest
     | .callDone _ _ :: _ => okDis rest
     | .uncaught _ :: _ => okDis rest
     | _ => false)
  | _ :: rest => okDis rest

/-! ### Bare defers

`runVerify(d1, ..., dK, done)` where each `dI` is a bare defer (no `wait`
step): the main sequence registers each defer in declaration order into the
run's `defers` array and advances on the next tick.  A defer that settles
before registration caches `invoked`/`result` in `runDefer.resolve`; one
that settles after registration but before the main sequence reaches the
end of the step list is marked `invoked` by `onDefer` without completing
the run (since `index < lastIx`).  Either way, when the end of the step
list is reached with every defer invoked, `invokeCheckFunc` completes with
the threaded `prevResult` (lines 173-179).  Otherwise the run waits, and
each later settlement runs `onDefer`; the one that makes every defer
invoked completes the run with `defers.map(x => x.result)` in registration
order, a single result passed bare (lines 228-231).  This model covers
successful settlements with no registered observers (the claim under
test). -/

/-- Registration-order bookkeeping of one defer: the `invoked` flag and the
cached `result`. -/
structure DeferSt where
  invoked : Bool
  result : Val
deriving DecidableEq, Repr

/-- `results.length === 1 ? results[0] : results`. -/
def collapseResults (results : List Val) : Val :=
  if results.length = 1 then results.headD .undef else .list (ValList.ofList results)

/-- `onDefer(undefined, v)` for defer `i` after the main sequence has
reached the end of the step list: if the defer was not yet invoked, mark it
invoked with its result, and if now all defers are invoked, complete the
run with the collected results in registration order. -/
def onDeferResolveEnd (states : List DeferSt) (i : Nat) (v : Val) :
    List DeferSt × Option Val :=
  match states[i]? with
  | none => (states, none)
  | some d =>
    if d.invoked then (states, none)
    else
      let states' := states.set i { invoked := true, result := v }
      if states'.all (·.invoked) then
        (states', some (collapseResults (states'.map (·.result))))
      else (states', none)

/-- Deliver the late settlements in order; the settlement that completes
the run yields `some (error, result)` for the completion notifier. -/
def settleAll (vals : List Val) : List Nat → List DeferSt → Option (Option JsError × Val)
  | [], _ => none
  | i :: rest, states =>
    let r := onDeferResolveEnd states i (vals[i]?.getD .undef)
    match r.2 with
    | some res => some (none, res)
    | none => settleAll vals rest r.1

/-- A bare-defer run: `vals` are the settled values in declaration order;
`late` lists (in settlement order) the defers that settle only after the
main sequence reaches the end of the step list, the rest having settled
earlier (and thus already being `invoked` with their cached values).  The
outcome is the `(error, result)` pair given to the completion notifier
(`none` when the run never completes). -/
def bareDeferRun (vals : List Val) (late : List Nat) : Option (Option JsError × Val) :=
  let states : List DeferSt := (List.range vals.length).map fun i =>
    if i ∈ late then { invoked := false, result := .undef }
    else { invoked := true, result := vals[i]?.getD .undef }
  if states.all (·.invoked) then
    some (none, .undef)
  else
    settleAll vals late states

/-! ## General trace lemmas -/

theorem doneCalls_append (a b : List Action) :
    doneCalls (a ++ b) = doneCalls a ++ doneCalls b := by
  simp [doneCalls, List.filterMap_append]

theorem countDone_append (a b : List Action) :
    countDone (a ++ b) = countDone a + countDone b := by
  simp [countDone, doneCalls_append]

theorem doneCalls_runFin (l : List Entry) (i : Nat) :
    doneCalls (runFin l i).1 = [] := by
  induction l generalizing i with
  | nil => rfl
  | cons e rest ih =>
    simp only [runFin]
    split
    · rfl
    · simpa [doneCalls] using ih (i + 1)

theorem countDone_runFin (l : List Entry) (i : Nat) :
    countDone (runFin l i).1 = 0 := by
  simp [countDone, doneCalls_runFin]

/-! ## Completion happens at most once -/

/-- Invariant tying the number of completion-handler calls in the trace to
the `completed` guard: none before the guard flips, at most one after. -/
def OnceInv (st : St) : Prop :=
  countDone st.acts ≤ if st.completed then 1 else 0

theorem invokeDoneModel_completed (cfg : Cfg) (st : St) (err : Option JsError) (r : Val) :
    (invokeDoneModel cfg st err r).completed = st.completed := by
  unfold invokeDoneModel
  split <;> rfl

theorem countDone_invokeDoneModel (cfg : Cfg) (st : St) (err : Option JsError) (r : Val) :
    countDone (invokeDoneModel cfg st err r).acts ≤ countDone st.acts + 1 := by
  unfold invokeDoneModel
  split <;> simp [countDone_append, countDone, doneCalls]

theorem finishRun_completed (cfg : Cfg) (st : St) (e1 : Option JsError) (r : Val) :
    (finishRun cfg st e1 r).completed = st.completed := by
  simp only [finishRun]
  split
  · exact invokeDoneModel_completed ..
  · split
    · exact invokeDoneModel_completed ..
    · split
      · rfl
      · exact invokeDoneModel_completed ..

theorem countDone_finishRun (cfg : Cfg) (st : St) (e1 : Option JsError) (r : Val) :
    countDone (finishRun cfg st e1 r).acts ≤ countDone st.acts + 1 := by
  simp only [finishRun]
  split
  · exact le_trans (countDone_invokeDoneModel ..)
      (by simp [countDone_append, countDone_runFin])
  · split
    · exact le_trans (countDone_invokeDoneModel ..)
        (by simp [countDone_append, countDone_runFin])
    · split
      · simp [countDone_append, countDone_runFin]
      · exact le_trans (countDone_invokeDoneModel ..)
          (by simp [countDone_append, countDone_runFin])

theorem doneCalls_onFailObserve (cfg : Cfg) (index : Nat) (err : Option JsError) :
    doneCalls (onFailObserve cfg index err).2 = [] := by
  simp only [onFailObserve]
  repeat' split
  all_goals rfl

theorem invokeFinallyModel_once (cfg : Cfg) (st : St) (index : Nat) (err : Option JsError)
    (r : Val) (h : OnceInv st) : OnceInv (invokeFinallyModel cfg st index err r) := by
  unfold invokeFinallyModel
  split
  · exact h
  · split
    · next hcm =>
      unfold OnceInv at h ⊢
      simpa [countDone_append, countDone, doneCalls, hcm] using h
    · next hcm =>
      unfold OnceInv at h ⊢
      rw [Bool.not_eq_true] at hcm
      rw [hcm] at h
      simp only [if_neg (by simp : ¬(false = true))] at h
      have h0 : countDone st.acts = 0 := Nat.le_zero.mp h
      rw [finishRun_completed]
      have hcnt := countDone_finishRun cfg
        { st with completed := true,
                  failError := err.map (fun (e : JsError) => JsError.mk e.message),
                  acts := st.acts ++ (onFailObserve cfg index err).2 }
        (onFailObserve cfg index err).1 r
      simp only [countDone_append, h0] at hcnt
      simpa [countDone, doneCalls_onFailObserve] using hcnt

theorem invokeFinallyModel_completed (cfg : Cfg) (st : St) (index : Nat)
    (err : Option JsError) (r : Val) (hcr : st.crashed = false) :
    (invokeFinallyModel cfg st index err r).completed = true := by
  unfold invokeFinallyModel
  rw [hcr]
  simp only [Bool.false_eq_true, if_false]
  split
  · next hcm => exact hcm
  · rw [finishRun_completed]

theorem suspendModel_once (cfg : Cfg) (st : St) (index : Nat) (h : OnceInv st) :
    OnceInv (suspendModel cfg st index) := by
  simp only [suspendModel]
  split
  · exact h
  · split
    · next =>
      unfold OnceInv at h ⊢
      simpa [countDone_append, countDone, doneCalls] using h
    · apply invokeFinallyModel_once
      unfold OnceInv at h ⊢
      simpa [countDone_append, countDone, doneCalls] using h

theorem OnceInv_update (st : St) (f : Option JsError) (t : Option (Nat × Wrap))
    (d : List Action) (hd : countDone d = 0) (h : OnceInv st) :
    OnceInv { failError := f, completed := st.completed, crashed := st.crashed,
              timer := t, acts := st.acts ++ d } := by
  unfold OnceInv at *
  simpa [countDone_append, hd] using h

theorem afterParseFail_once (cfg : Cfg) (st : St) (index : Nat) (fn : CheckFn) (prev : Val)
    (w : Bool) (flags : Wrap) (h : OnceInv st) :
    OnceInv (afterParseFail cfg st index fn prev w flags) := by
  simp only [afterParseFail]
  repeat' split
  all_goals
    first
      | exact OnceInv_update st _ _ _ rfl h
      | exact invokeFinallyModel_once _ _ _ _ _
          (OnceInv_update st _ _ _ rfl h)
      | exact suspendModel_once _ _ _
          (OnceInv_update st _ _ _ rfl h)

set_option maxHeartbeats 1000000 in
theorem loop_once (cfg : Cfg) (rest : List Entry) :
    ∀ (index : Nat) (prev : Val) (st : St), OnceInv st →
      OnceInv (loop cfg rest index prev st) := by
  induction rest with
  | nil =>
    intro index prev st h
    simp only [loop]
    repeat' split
    all_goals first
      | exact h
      | exact invokeFinallyModel_once _ _ _ _ _ h
  | cons e rest ih =>
    intro index prev st h
    simp only [loop]
    repeat' split
    all_goals first
      | exact h
      | exact invokeFinallyModel_once _ _ _ _ _ h
      | exact ih _ _ _ h
      | exact ih _ _ _ (OnceInv_update st _ _ _ rfl h)
      | exact invokeFinallyModel_once _ _ _ _ _
          (OnceInv_update st _ _ _ rfl h)
      | exact suspendModel_once _ _ _
          (OnceInv_update st _ _ _ rfl h)
      | exact afterParseFail_once _ _ _ _ _ _ _
          (invokeFinallyModel_once _ _ _ _ _ h)

theorem countDone_runVerifyModel (args : List Entry) (t : List Action)
    (h : runVerifyModel args = .ok t) : countDone t ≤ 1 := by
  simp only [runVerifyModel] at h
  split at h
  · exact absurd h (by simp)
  · have h1 : OnceInv (loop (mkCfg args) (mkCfg args).steps 0 .undef {}) :=
      loop_once _ _ _ _ _ (by unfold OnceInv; simp [countDone, doneCalls])
    unfold OnceInv at h1
    have ht : t = (loop (mkCfg args) (mkCfg args).steps 0 .undef {}).acts := by
      simpa using h.symm
    rw [ht]
    exact le_trans h1 (by split <;> omega)

/-! ## The result argument is passed iff the handler declares arity above one -/

/-- Invariant: every completion-handler call in the trace passed a result
argument exactly when the terminal handler declares more than one
parameter. -/
def ShapeInv (cfg : Cfg) (st : St) : Prop :=
  ∀ p ∈ doneCalls st.acts, (p.2.isSome ↔ 1 < cfg.doneArity)

theorem ShapeInv_update (cfg : Cfg) (st : St) (f : Option JsError) (t : Option (Nat × Wrap))
    (d : List Action) (hd : doneCalls d = []) (h : ShapeInv cfg st) :
    ShapeInv cfg { failError := f, completed := st.completed, crashed := st.crashed,
                   timer := t, acts := st.acts ++ d } := by
  intro p hp
  simp only [ShapeInv, doneCalls_append, hd, List.append_nil] at hp ⊢
  exact h p hp

theorem invokeDoneModel_shape (cfg : Cfg) (st : St) (err : Option JsError) (r : Val)
    (h : ShapeInv cfg st) : ShapeInv cfg (invokeDoneModel cfg st err r) := by
  intro p hp
  unfold invokeDoneModel at hp
  split at hp
  · simp only [doneCalls_append, List.mem_append] at hp
    rcases hp with hp | hp
    · exact h p hp
    · simp only [doneCalls, List.filterMap] at hp
      simp only [List.mem_singleton] at hp  -- p = (err, ite ...)
      subst hp
      by_cases har : 1 < cfg.doneArity <;> simp [har]
  · simp only [doneCalls_append, List.mem_append] at hp
    rcases hp with hp | hp
    · exact h p hp
    · simp [doneCalls, List.filterMap] at hp

theorem finishRun_shape (cfg : Cfg) (st : St) (e1 : Option JsError) (r : Val)
    (h : ShapeInv cfg st) : ShapeInv cfg (finishRun cfg st e1 r) := by
  have hmid : ShapeInv cfg { st with acts := st.acts ++ (runFin cfg.fin 0).1 } := by
    intro p hp
    simp only [doneCalls_append, doneCalls_runFin, List.append_nil] at hp
    exact h p hp
  simp only [finishRun]
  split
  · exact invokeDoneModel_shape _ _ _ _ hmid
  · split
    · exact invokeDoneModel_shape _ _ _ _ hmid
    · split
      · exact hmid
      · exact invokeDoneModel_shape _ _ _ _ hmid

theorem invokeFinallyModel_shape (cfg : Cfg) (st : St) (index : Nat) (err : Option JsError)
    (r : Val) (h : ShapeInv cfg st) : ShapeInv cfg (invokeFinallyModel cfg st index err r) := by
  unfold invokeFinallyModel
  split
  · exact h
  · split
    · intro p hp
      simp only [doneCalls_append] at hp
      simp only [doneCalls, List.filterMap, List.append_nil] at hp
      exact h p (by simpa [doneCalls] using hp)
    · apply finishRun_shape
      intro p hp
      simp only [doneCalls_append, doneCalls_onFailObserve, List.append_nil] at hp
      exact h p hp

theorem suspendModel_shape (cfg : Cfg) (st : St) (index : Nat) (h : ShapeInv cfg st) :
    ShapeInv cfg (suspendModel cfg st index) := by
  simp only [suspendModel]
  split
  · exact h
  · split
    · intro p hp
      simp only [doneCalls_append, doneCalls, List.filterMap, List.append_nil] at hp
      exact h p (by simpa [doneCalls] using hp)
    · apply invokeFinallyModel_shape
      intro p hp
      simp only [doneCalls_append, doneCalls, List.filterMap, List.append_nil] at hp
      exact h p (by simpa [doneCalls] using hp)

theorem afterParseFail_shape (cfg : Cfg) (st : St) (index : Nat) (fn : CheckFn) (prev : Val)
    (w : Bool) (flags : Wrap) (h : ShapeInv cfg st) :
    ShapeInv cfg (afterParseFail cfg st index fn prev w flags) := by
  simp only [afterParseFail]
  repeat' split
  all_goals
    first
      | exact ShapeInv_update cfg st _ _ _ rfl h
      | exact invokeFinallyModel_shape _ _ _ _ _ (ShapeInv_update cfg st _ _ _ rfl h)
      | exact suspendModel_shape _ _ _ (ShapeInv_update cfg st _ _ _ rfl h)

set_option maxHeartbeats 1000000 in
theorem loop_shape (cfg : Cfg) (rest : List Entry) :
    ∀ (index : Nat) (prev : Val) (st : St), ShapeInv cfg st →
      ShapeInv cfg (loop cfg rest index prev st) := by
  induction rest with
  | nil =>
    intro index prev st h
    simp only [loop]
    repeat' split
    all_goals first
      | exact h
      | exact invokeFinallyModel_shape _ _ _ _ _ h
  | cons e rest ih =>
    intro index prev st h
    simp only [loop]
    repeat' split
    all_goals first
      | exact h
      | exact invokeFinallyModel_shape _ _ _ _ _ h
      | exact ih _ _ _ h
      | exact ih _ _ _ (ShapeInv_update cfg st _ _ _ rfl h)
      | exact invokeFinallyModel_shape _ _ _ _ _ (ShapeInv_update cfg st _ _ _ rfl h)
      | exact suspendModel_shape _ _ _ (ShapeInv_update cfg st _ _ _ rfl h)
      | exact afterParseFail_shape _ _ _ _ _ _ _ (invokeFinallyModel_shape _ _ _ _ _ h)

theorem shape_runVerifyModel (args : List Entry) (t : List Action)
    (h : runVerifyModel args = .ok t) :
    ∀ p ∈ doneCalls t, (p.2.isSome ↔ 1 < doneArityOf args) := by
  simp only [runVerifyModel] at h
  split at h
  · exact absurd h (by simp)
  · have h1 := loop_shape (mkCfg args) (mkCfg args).steps 0 .undef {}
      (by intro p hp; simp [doneCalls] at hp)
    have ht : t = (loop (mkCfg args) (mkCfg args).steps 0 .undef {}).acts := by
      simpa using h.symm
    rw [ht]
    exact h1

/-! ## Timer disarm placement -/

theorem okDis_append (a b : List Action) (ha : okDis a = true) (hb : okDis b = true) :
    okDis (a ++ b) = true := by
  induction a with
  | nil => simpa using hb
  | cons x a ih =>
    cases x with
    | disarm =>
      cases a with
      | nil => simp [okDis] at ha
      | cons y a' =>
        cases y <;> simp only [okDis, List.cons_append] at ha ⊢ <;>
          first
            | exact ih ha
            | exact ha
    | arm ms => exact ih (by simpa [okDis] using ha)
    | invoke i ar => exact ih (by simpa [okDis] using ha)
    | invokeFailHook i => exact ih (by simpa [okDis] using ha)
    | invokeFinallyCb i => exact ih (by simpa [okDis] using ha)
    | timerFire ms => exact ih (by simpa [okDis] using ha)
    | callDone e r => exact ih (by simpa [okDis] using ha)
    | assertFail m => exact ih (by simpa [okDis] using ha)
    | uncaught e => exact ih (by simpa [okDis] using ha)

theorem okDis_runFin (l : List Entry) (i : Nat) : okDis (runFin l i).1 = true := by
  induction l generalizing i with
  | nil => rfl
  | cons e rest ih =>
    simp only [runFin]
    split
    · rfl
    · simpa [okDis] using ih (i + 1)

/-- Invariant: the trace so far has every timer disarm immediately followed
by a re-arm or a completion-handler call. -/
def DisInv (st : St) : Prop := okDis st.acts = true

theorem DisInv_update (st : St) (f : Option JsError) (t : Option (Nat × Wrap))
    (d : List Action) (hd : okDis d = true) (h : DisInv st) :
    DisInv { failError := f, completed := st.completed, crashed := st.crashed,
             timer := t, acts := st.acts ++ d } :=
  okDis_append _ _ h hd

theorem invokeDoneModel_dis (cfg : Cfg) (st : St) (err : Option JsError) (r : Val)
    (h : DisInv st) : DisInv (invokeDoneModel cfg st err r) := by
  unfold invokeDoneModel
  split
  · exact okDis_append _ _ h rfl
  · exact okDis_append _ _ h rfl

theorem finishRun_dis (cfg : Cfg) (st : St) (e1 : Option JsError) (r : Val)
    (h : DisInv st) : DisInv (finishRun cfg st e1 r) := by
  have hmid : DisInv { st with acts := st.acts ++ (runFin cfg.fin 0).1 } :=
    okDis_append _ _ h (okDis_runFin _ _)
  simp only [finishRun]
  split
  · exact invokeDoneModel_dis _ _ _ _ hmid
  · split
    · exact invokeDoneModel_dis _ _ _ _ hmid
    · split
      · exact hmid
      · exact invokeDoneModel_dis _ _ _ _ hmid

theorem invokeFinallyModel_dis (cfg : Cfg) (st : St) (index : Nat) (err : Option JsError)
    (r : Val) (h : DisInv st) : DisInv (invokeFinallyModel cfg st index err r) := by
  unfold invokeFinallyModel
  split
  · exact h
  · split
    · exact okDis_append _ _ h rfl
    · exact finishRun_dis _ _ _ _ (okDis_append _ _ h (by
        have := doneCalls_onFailObserve cfg index err
        revert this
        simp only [onFailObserve]
        repeat' split
        all_goals intro; rfl))

theorem suspendModel_dis (cfg : Cfg) (st : St) (index : Nat) (h : DisInv st) :
    DisInv (suspendModel cfg st index) := by
  simp only [suspendModel]
  split
  · exact h
  · split
    · exact okDis_append _ _ (okDis_append _ _ h rfl) rfl
    · exact invokeFinallyModel_dis _ _ _ _ _ (okDis_append _ _ h rfl)

theorem afterParseFail_dis (cfg : Cfg) (st : St) (index : Nat) (fn : CheckFn) (prev : Val)
    (w : Bool) (flags : Wrap) (h : DisInv st) :
    DisInv (afterParseFail cfg st index fn prev w flags) := by
  simp only [afterParseFail]
  repeat' split
  all_goals
    first
      | exact DisInv_update st _ _ _ rfl h
      | exact invokeFinallyModel_dis _ _ _ _ _ (DisInv_update st _ _ _ rfl h)
      | exact suspendModel_dis _ _ _ (DisInv_update st _ _ _ rfl h)

set_option maxHeartbeats 1000000 in
theorem loop_dis (cfg : Cfg) (rest : List Entry) :
    ∀ (index : Nat) (prev : Val) (st : St), DisInv st →
      DisInv (loop cfg rest index prev st) := by
  induction rest with
  | nil =>
    intro index prev st h
    simp only [loop]
    repeat' split
    all_goals first
      | exact h
      | exact invokeFinallyModel_dis _ _ _ _ _ h
  | cons e rest ih =>
    intro index prev st h
    simp only [loop]
    repeat' split
    all_goals first
      | exact h
      | exact invokeFinallyModel_dis _ _ _ _ _ h
      | exact ih _ _ _ h
      | exact ih _ _ _ (DisInv_update st _ _ _ rfl h)
      | exact invokeFinallyModel_dis _ _ _ _ _ (DisInv_update st _ _ _ rfl h)
      | exact suspendModel_dis _ _ _ (DisInv_update st _ _ _ rfl h)
      | exact afterParseFail_dis _ _ _ _ _ _ _ (invokeFinallyModel_dis _ _ _ _ _ h)

theorem okDis_runVerifyModel (args : List Entry) (t : List Action)
    (h : runVerifyModel args = .ok t) : okDis t = true := by
  simp only [runVerifyModel] at h
  split at h
  · exact absurd h (by simp)
  · have h1 := loop_dis (mkCfg args) (mkCfg args).steps 0 .undef {} rfl
    have ht : t = (loop (mkCfg args) (mkCfg args).steps 0 .undef {}).acts := by
      simpa using h.symm
    rw [ht]
    exact h1

/-! ## Successful plain runs thread the last settled value to the handler -/

/-- The writing shape of an always-succeeding check step: a one-parameter
function returning its value synchronously, a one-parameter function
returning a resolving promise, or a `(result, next)` function calling
`next(undefined, value)`. -/
inductive SKind where
  | sVal : SKind
  | sProm : SKind
  | sCb : SKind
deriving DecidableEq, Repr

/-- An always-succeeding check step: its writing shape and the value
transformation it applies to the threaded result. -/
structure SimpleStep where
  kind : SKind
  f : Val → Val

/-- The entry-point argument corresponding to a simple step. -/
def mkSimpleEntry (s : SimpleStep) : Entry :=
  match s.kind with
  | .sVal => plainFn 1 (arrowSrc1 "r") (fun v => .ret (s.f v))
  | .sProm => plainFn 1 (arrowSrc1 "r") (fun v => .promiseRes (s.f v))
  | .sCb => plainFn 2 (arrowSrcP "r, next") (fun v => .nextOk (s.f v))

/-- The value a chain of simple steps threads out of an initial result. -/
def foldSimple (prev : Val) : List SimpleStep → Val
  | [] => prev
  | s :: rest => foldSimple (s.f prev) rest

theorem detect_result_param :
    detectWantCallbackByParamName (arrowSrc1 "r") = some false := by decide

theorem onFailObserve_none (cfg : Cfg) (index : Nat) :
    onFailObserve cfg index none = (none, []) := by
  simp only [onFailObserve]

theorem invokeFinallyModel_success (cfg : Cfg) (hfin : cfg.fin = [])
    (hcall : cfg.doneCallable = true) (h2 : 1 < cfg.doneArity)
    (st : St) (index : Nat) (r : Val) (hcr : st.crashed = false) (hcm : st.completed = false) :
    doneCalls (invokeFinallyModel cfg st index none r).acts
      = doneCalls st.acts ++ [(none, some r)] := by
  unfold invokeFinallyModel
  rw [hcr, hcm]
  simp only [Bool.false_eq_true, if_false]
  rw [onFailObserve_none]
  simp only [finishRun, hfin, runFin]
  simp [invokeDoneModel, hcall, doneCalls_append, doneCalls, h2, Option.map]

theorem loop_cons_sVal (cfg : Cfg) (rest : List Entry) (f : Val → Val) (index : Nat)
    (prev : Val) (st : St) (hcr : st.crashed = false) (hfe : st.failError = none) :
    loop cfg (mkSimpleEntry ⟨.sVal, f⟩ :: rest) index prev st
      = loop cfg rest (index + 1) (f prev)
          { st with acts := st.acts ++ [.invoke index (CallArgs.resOnly prev)] } := by
  simp [loop, mkSimpleEntry, plainFn, flagsOf, detect_result_param, hcr, hfe]

theorem loop_cons_sProm (cfg : Cfg) (rest : List Entry) (f : Val → Val) (index : Nat)
    (prev : Val) (st : St) (hcr : st.crashed = false) (hfe : st.failError = none) :
    loop cfg (mkSimpleEntry ⟨.sProm, f⟩ :: rest) index prev st
      = loop cfg rest (index + 1) (f prev)
          { st with acts := st.acts ++ [.invoke index (CallArgs.resOnly prev)] } := by
  simp [loop, mkSimpleEntry, plainFn, flagsOf, detect_result_param, hcr, hfe]

theorem loop_cons_sCb (cfg : Cfg) (rest : List Entry) (f : Val → Val) (index : Nat)
    (prev : Val) (st : St) (hcr : st.crashed = false) (hfe : st.failError = none) :
    loop cfg (mkSimpleEntry ⟨.sCb, f⟩ :: rest) index prev st
      = loop cfg rest (index + 1) (f prev)
          { st with acts := st.acts ++ [.invoke index (CallArgs.resAndCb prev)] } := by
  simp [loop, mkSimpleEntry, plainFn, flagsOf, hcr, hfe]

theorem loop_simple (cfg : Cfg) (hfin : cfg.fin = []) (hcall : cfg.doneCallable = true)
    (h2 : 1 < cfg.doneArity) :
    ∀ (ss : List SimpleStep) (index : Nat) (prev : Val) (st : St),
      st.crashed = false → st.failError = none → st.completed = false →
      doneCalls (loop cfg (ss.map mkSimpleEntry) index prev st).acts
        = doneCalls st.acts ++ [(none, some (foldSimple prev ss))] := by
  intro ss
  induction ss with
  | nil =>
    intro index prev st hcr hfe hcm
    simp only [List.map_nil, loop, hcr, hfe]
    simp only [Bool.false_eq_true, if_false, Option.isSome_none]
    exact invokeFinallyModel_success cfg hfin hcall h2 st index prev hcr hcm
  | cons s ss ih =>
    intro index prev st hcr hfe hcm
    rcases s with ⟨kind, f⟩
    cases kind with
    | sVal =>
      rw [List.map_cons, loop_cons_sVal cfg _ f index prev st hcr hfe,
        ih (index + 1) (f prev)
          { st with acts := st.acts ++ [Action.invoke index (CallArgs.resOnly prev)] } hcr hfe hcm]
      simp [doneCalls_append, doneCalls, foldSimple]
    | sProm =>
      rw [List.map_cons, loop_cons_sProm cfg _ f index prev st hcr hfe,
        ih (index + 1) (f prev)
          { st with acts := st.acts ++ [Action.invoke index (CallArgs.resOnly prev)] } hcr hfe hcm]
      simp [doneCalls_append, doneCalls, foldSimple]
    | sCb =>
      rw [List.map_cons, loop_cons_sCb cfg _ f index prev st hcr hfe,
        ih (index + 1) (f prev)
          { st with acts := st.acts ++ [Action.invoke index (CallArgs.resAndCb prev)] } hcr hfe hcm]
      simp [doneCalls_append, doneCalls, foldSimple]

/-! ## Trace membership is preserved by every engine operation -/

theorem mem_update (st : St) (f : Option JsError) (t : Option (Nat × Wrap))
    (d : List Action) (x : Action) (h : x ∈ st.acts) :
    x ∈ ({ failError := f, completed := st.completed, crashed := st.crashed,
           timer := t, acts := st.acts ++ d } : St).acts :=
  List.mem_append_left _ h

theorem invokeDoneModel_mem (cfg : Cfg) (st : St) (err : Option JsError) (r : Val)
    (x : Action) (h : x ∈ st.acts) : x ∈ (invokeDoneModel cfg st err r).acts := by
  unfold invokeDoneModel
  split
  · exact List.mem_append_left _ h
  · exact List.mem_append_left _ h

theorem finishRun_mem (cfg : Cfg) (st : St) (e1 : Option JsError) (r : Val)
    (x : Action) (h : x ∈ st.acts) : x ∈ (finishRun cfg st e1 r).acts := by
  have hmid : x ∈ ({ st with acts := st.acts ++ (runFin cfg.fin 0).1 } : St).acts :=
    List.mem_append_left _ h
  simp only [finishRun]
  split
  · exact invokeDoneModel_mem _ _ _ _ _ hmid
  · split
    · exact invokeDoneModel_mem _ _ _ _ _ hmid
    · split
      · exact hmid
      · exact invokeDoneModel_mem _ _ _ _ _ hmid

theorem invokeFinallyModel_mem (cfg : Cfg) (st : St) (index : Nat) (err : Option JsError)
    (r : Val) (x : Action) (h : x ∈ st.acts) :
    x ∈ (invokeFinallyModel cfg st index err r).acts := by
  unfold invokeFinallyModel
  split
  · exact h
  · split
    · exact List.mem_append_left _ h
    · exact finishRun_mem _ _ _ _ _ (List.mem_append_left _ h)

theorem suspendModel_mem (cfg : Cfg) (st : St) (index : Nat) (x : Action)
    (h : x ∈ st.acts) : x ∈ (suspendModel cfg st index).acts := by
  simp only [suspendModel]
  split
  · exact h
  · split
    · exact List.mem_append_left _ (List.mem_append_left _ h)
    · exact invokeFinallyModel_mem _ _ _ _ _ _ (List.mem_append_left _ h)

theorem afterParseFail_mem (cfg : Cfg) (st : St) (index : Nat) (fn : CheckFn) (prev : Val)
    (w : Bool) (flags : Wrap) (x : Action) (h : x ∈ st.acts) :
    x ∈ (afterParseFail cfg st index fn prev w flags).acts := by
  simp only [afterParseFail]
  repeat' split
  all_goals
    first
      | exact mem_update st _ _ _ _ h
      | exact invokeFinallyModel_mem _ _ _ _ _ _ (mem_update st _ _ _ _ h)
      | exact suspendModel_mem _ _ _ _ (mem_update st _ _ _ _ h)

set_option maxHeartbeats 1000000 in
theorem loop_mem (cfg : Cfg) (rest : List Entry) :
    ∀ (index : Nat) (prev : Val) (st : St) (x : Action), x ∈ st.acts →
      x ∈ (loop cfg rest index prev st).acts := by
  induction rest with
  | nil =>
    intro index prev st x h
    simp only [loop]
    repeat' split
    all_goals first
      | exact h
      | exact invokeFinallyModel_mem _ _ _ _ _ _ h
  | cons e rest ih =>
    intro index prev st x h
    simp only [loop]
    repeat' split
    all_goals first
      | exact h
      | exact invokeFinallyModel_mem _ _ _ _ _ _ h
      | exact ih _ _ _ _ h
      | exact ih _ _ _ _ (mem_update st _ _ _ _ h)
      | exact invokeFinallyModel_mem _ _ _ _ _ _ (mem_update st _ _ _ _ h)
      | exact suspendModel_mem _ _ _ _ (mem_update st _ _ _ _ h)
      | exact afterParseFail_mem _ _ _ _ _ _ _ _ (invokeFinallyModel_mem _ _ _ _ _ _ h)

/-! ## Reported-error policy of the finalizer -/

/-- The error of the first finally hook that throws synchronously (it
aborts the hook loop). -/
def firstSyncThrow : List FinOutcome → Option JsError
  | [] => none
  | .syncThrow e :: _ => some e
  | _ :: rest => firstSyncThrow rest

/-- The hook call outcomes that are actually started: everything up to the
first synchronous throw. -/
def startedOuts : List FinOutcome → List FinOutcome
  | [] => []
  | .syncThrow _ :: _ => []
  | o :: rest => o :: startedOuts rest

/-- The outcomes of calling every finally hook of a run. -/
def finOutcomesOf (fin : List Entry) : List FinOutcome :=
  fin.map fun e => finOutcome ((wrapOf e).fn.body .undef)

/-- The error the completion notifier reports, as a function of the error
latched before the finalizer runs and the hook outcomes: a synchronous hook
throw supersedes everything; otherwise a latched error is kept; otherwise
the first hook rejection is adopted.  (This is the policy the amended claim
states; the theorem below proves the engine's completion path refines
it.) -/
def reportedError (e0 : Option JsError) (outs : List FinOutcome) : Option JsError :=
  match firstSyncThrow outs with
  | some e => some e
  | none =>
    match e0 with
    | some e => some e
    | none => firstRej (outs.filter truthyOut)

theorem runFin_spec (l : List Entry) (i : Nat) :
    (runFin l i).2.1 = startedOuts (finOutcomesOf l)
    ∧ (runFin l i).2.2 = firstSyncThrow (finOutcomesOf l) := by
  induction l generalizing i with
  | nil => exact ⟨rfl, rfl⟩
  | cons e rest ih =>
    rcases ih (i + 1) with ⟨h1, h2⟩
    cases hfo : finOutcome ((wrapOf e).fn.body .undef) with
    | syncThrow e2 =>
      constructor <;> simp [runFin, hfo, finOutcomesOf, startedOuts, firstSyncThrow]
    | value v =>
      constructor
      · simpa [runFin, hfo, finOutcomesOf, startedOuts] using h1
      · simpa [runFin, hfo, finOutcomesOf, firstSyncThrow] using h2
    | awaitRes v =>
      constructor
      · simpa [runFin, hfo, finOutcomesOf, startedOuts] using h1
      · simpa [runFin, hfo, finOutcomesOf, firstSyncThrow] using h2
    | awaitRej e2 =>
      constructor
      · simpa [runFin, hfo, finOutcomesOf, startedOuts] using h1
      · simpa [runFin, hfo, finOutcomesOf, firstSyncThrow] using h2
    | awaitHang =>
      constructor
      · simpa [runFin, hfo, finOutcomesOf, startedOuts] using h1
      · simpa [runFin, hfo, finOutcomesOf, firstSyncThrow] using h2

theorem startedOuts_eq_self (l : List FinOutcome) (h : firstSyncThrow l = none) :
    startedOuts l = l := by
  induction l with
  | nil => rfl
  | cons o rest ih =>
    cases o with
    | syncThrow e => simp [firstSyncThrow] at h
    | value v =>
      simp only [firstSyncThrow] at h
      simp [startedOuts, ih h]
    | awaitRes v =>
      simp only [firstSyncThrow] at h
      simp [startedOuts, ih h]
    | awaitRej e =>
      simp only [firstSyncThrow] at h
      simp [startedOuts, ih h]
    | awaitHang =>
      simp only [firstSyncThrow] at h
      simp [startedOuts, ih h]

theorem hasHang_filter (l : List FinOutcome) (h : hasHang l = false) :
    hasHang (l.filter truthyOut) = false := by
  simp only [hasHang, List.any_eq_false] at h ⊢
  intro x hx
  exact h x (List.mem_of_mem_filter hx)

theorem doneCalls_invokeDoneModel (cfg : Cfg) (st : St) (err : Option JsError) (r : Val)
    (hcall : cfg.doneCallable = true) :
    doneCalls (invokeDoneModel cfg st err r).acts
      = doneCalls st.acts ++ [(err, if 1 < cfg.doneArity then some r else none)] := by
  simp [invokeDoneModel, hcall, doneCalls_append, doneCalls]

theorem finishRun_reported (cfg : Cfg) (st : St) (e0 : Option JsError) (r : Val)
    (hcall : cfg.doneCallable = true)
    (hnh : hasHang (startedOuts (finOutcomesOf cfg.fin)) = false) :
    doneCalls (finishRun cfg st e0 r).acts
      = doneCalls st.acts ++
        [(reportedError e0 (finOutcomesOf cfg.fin),
          if 1 < cfg.doneArity then some r else none)] := by
  rcases runFin_spec cfg.fin 0 with ⟨hp, ha⟩
  simp only [finishRun, hp, ha]
  cases habort : firstSyncThrow (finOutcomesOf cfg.fin) with
  | some e2 =>
    simp only [reportedError, habort]
    split
    · rw [doneCalls_invokeDoneModel _ _ _ _ hcall]
      simp [doneCalls_append, doneCalls_runFin]
    · split
      · rw [doneCalls_invokeDoneModel _ _ _ _ hcall]
        simp [doneCalls_append, doneCalls_runFin]
      · rw [if_neg (by rw [hnh]; simp)]
        rw [doneCalls_invokeDoneModel _ _ _ _ hcall]
        simp [doneCalls_append, doneCalls_runFin]
  | none =>
    rw [startedOuts_eq_self _ habort] at hnh ⊢
    simp only [reportedError, habort]
    split
    · next hemp =>
      rw [doneCalls_invokeDoneModel _ _ _ _ hcall]
      have hfr : firstRej (List.filter truthyOut (finOutcomesOf cfg.fin)) = none := by
        rw [List.isEmpty_iff.mp hemp]
        rfl
      cases e0 <;> simp [doneCalls_append, doneCalls_runFin, hfr]
    · split
      · next e2 hrej =>
        rw [doneCalls_invokeDoneModel _ _ _ _ hcall]
        cases e0 <;> simp [doneCalls_append, doneCalls_runFin, hrej]
      · next hrej =>
        rw [if_neg (by rw [hasHang_filter _ hnh]; simp)]
        rw [doneCalls_invokeDoneModel _ _ _ _ hcall]
        cases e0 <;> simp [doneCalls_append, doneCalls_runFin, hrej]

theorem onFailObserve_nohook (cfg : Cfg) (index : Nat) (err : Option JsError)
    (hidx : cfg.steps[index]? = none) :
    onFailObserve cfg index err = (err, []) := by
  cases err <;> simp [onFailObserve, hidx]

theorem invokeFinallyModel_reportAll (cfg : Cfg) (st : St) (index : Nat)
    (err : Option JsError) (r : Val) (hcr : st.crashed = false) (hcm : st.completed = false)
    (hcall : cfg.doneCallable = true) (hidx : cfg.steps[index]? = none)
    (hnh : hasHang (startedOuts (finOutcomesOf cfg.fin)) = false) :
    doneCalls (invokeFinallyModel cfg st index err r).acts
      = doneCalls st.acts ++
        [(reportedError err (finOutcomesOf cfg.fin),
          if 1 < cfg.doneArity then some r else none)] := by
  unfold invokeFinallyModel
  rw [hcr, hcm]
  simp only [Bool.false_eq_true, if_false]
  rw [onFailObserve_nohook _ _ _ hidx]
  rw [finishRun_reported _ _ _ _ hcall hnh]
  simp [doneCalls_append]

theorem reportedError_nil (e0 : Option JsError) : reportedError e0 [] = e0 := by
  cases e0 <;> rfl

/-! ## Auxiliary facts for simple runs -/

theorem isFinallyEntry_mkSimpleEntry (s : SimpleStep) :
    isFinallyEntry (mkSimpleEntry s) = false := by
  rcases s with ⟨k, f⟩
  cases k <;> rfl

theorem filter_simple_not (ss : List SimpleStep) (a : Nat) :
    (ss.map mkSimpleEntry ++ [doneFn a]).filter (fun x => !isFinallyEntry x)
      = ss.map mkSimpleEntry ++ [doneFn a] := by
  apply List.filter_eq_self.mpr
  intro e he
  rcases List.mem_append.mp he with h | h
  · rcases List.mem_map.mp h with ⟨s, _, rfl⟩
    simp [isFinallyEntry_mkSimpleEntry]
  · simp only [List.mem_singleton] at h
    subst h
    rfl

theorem filter_simple_fin (ss : List SimpleStep) (a : Nat) :
    (ss.map mkSimpleEntry ++ [doneFn a]).filter (fun x => isFinallyEntry x) = [] := by
  rw [List.filter_eq_nil_iff]
  intro e he
  rcases List.mem_append.mp he with h | h
  · rcases List.mem_map.mp h with ⟨s, _, rfl⟩
    simp [isFinallyEntry_mkSimpleEntry]
  · simp only [List.mem_singleton] at h
    subst h
    simp [doneFn, plainFn, isFinallyEntry]

theorem mkCfg_simple (ss : List SimpleStep) (a : Nat) :
    mkCfg (ss.map mkSimpleEntry ++ [doneFn a])
      = ⟨ss.map mkSimpleEntry, [], a, true⟩ := by
  unfold mkCfg
  rw [filter_simple_not, filter_simple_fin]
  simp [doneFn, plainFn, doneArityOfEntry, doneCallableOfEntry]

/-! ## Claim C1 -/

/-- C1: the completion notifier fires at most once per run — every trace of
either entry point contains at most one completion-handler call; completing
a run flips the `completed` guard to true; and a second completion attempt
trips the `assert(!completed)` programming-error assertion (the run is
marked crashed, one assertion action is recorded) instead of invoking the
handler again. -/
theorem c1_completion_fires_once :
    (∀ (args : List Entry) (t : List Action), runVerifyModel args = .ok t → countDone t ≤ 1)
    ∧ (∀ (cfg : Cfg) (st : St) (index : Nat) (err : Option JsError) (r : Val),
        st.crashed = false →
        (invokeFinallyModel cfg st index err r).completed = true)
    ∧ (∀ (cfg : Cfg) (st : St) (index : Nat) (err : Option JsError) (r : Val),
        st.completed = true → st.crashed = false →
        invokeFinallyModel cfg st index err r
          = { st with crashed := true,
                      acts := st.acts ++ [.assertFail "bug: invokeFinally already called"] }) := by
  refine ⟨countDone_runVerifyModel, invokeFinallyModel_completed, ?_⟩
  intro cfg st index err r hcm hcr
  unfold invokeFinallyModel
  rw [hcr, hcm]
  simp

/-- Witness for `c1_completion_fires_once` at concrete inputs. -/
theorem c1_completion_fires_once_witness :
    countDone [Action.invoke 0 .noArgs, .disarm, .callDone none (some (.str "a"))] ≤ 1
    ∧ (invokeFinallyModel ⟨[], [], 2, true⟩ {} 0 none .undef).completed = true
    ∧ invokeFinallyModel ⟨[], [], 2, true⟩ { completed := true } 0 none .undef
        = { completed := true, crashed := true,
            acts := [Action.assertFail "bug: invokeFinally already called"] } :=
  ⟨c1_completion_fires_once.1 [plainFn 0 arrowSrc0 (fun _ => .ret (.str "a")), doneFn 2] _ rfl,
   c1_completion_fires_once.2.1 ⟨[], [], 2, true⟩ {} 0 none .undef rfl,
   c1_completion_fires_once.2.2 ⟨[], [], 2, true⟩ { completed := true } 0 none .undef rfl rfl⟩

/-! ## Claim C2 -/

/-- C2 counterexample: a successful run whose terminal handler declares a
single parameter is invoked with the error slot alone — the final result
`"a"` is dropped instead of being passed as claimed for every run. -/
theorem c2_result_dropped_for_unary_handler_cex :
    doneCalls (traceOf [plainFn 0 arrowSrc0 (fun _ => .ret (.str "a")), doneFn 1])
      = [(none, none)]
    ∧ (none : Option Val) ≠ some (.str "a") :=
  ⟨rfl, by decide⟩

/-- C2 (amended): for every run of N ≥ 1 check steps — written as
result-arg sync steps, result-arg promise steps, or `(result, next)`
callback steps, all succeeding — plus a terminal handler declaring more
than one parameter, the handler fires exactly once with
`(undefined, finalResult)`, `finalResult` being the last step's settled
value (the fold of the steps' transformations); a handler declaring at
most one parameter receives no result argument (see C10). -/
theorem c2_success_delivers_final_result (ss : List SimpleStep) (a : Nat)
    (hss : ss ≠ []) (ha : 1 < a) :
    ∃ t, runVerifyModel (ss.map mkSimpleEntry ++ [doneFn a]) = .ok t
      ∧ doneCalls t = [(none, some (foldSimple .undef ss))] := by
  refine ⟨(loop ⟨ss.map mkSimpleEntry, [], a, true⟩ (ss.map mkSimpleEntry) 0 .undef {}).acts,
    ?_, ?_⟩
  · simp only [runVerifyModel, filter_simple_not]
    rw [if_neg (by
      have h1 : 0 < ss.length := List.length_pos.mpr hss
      simp only [List.length_append, List.length_map, List.length_singleton]
      omega)]
    rw [mkCfg_simple]
  · have h := loop_simple ⟨ss.map mkSimpleEntry, [], a, true⟩ rfl rfl ha ss 0 .undef {} rfl rfl rfl
    simpa [doneCalls] using h

/-- Witness for `c2_success_delivers_final_result` at a one-step run. -/
theorem c2_success_delivers_final_result_witness :
    ([⟨.sVal, fun _ => Val.str "a"⟩] : List SimpleStep) ≠ []
    ∧ (1 : Nat) < 2
    ∧ ∃ t, runVerifyModel
          (([⟨.sVal, fun _ => Val.str "a"⟩] : List SimpleStep).map mkSimpleEntry ++ [doneFn 2])
          = .ok t
        ∧ doneCalls t
          = [(none, some (foldSimple .undef ([⟨.sVal, fun _ => Val.str "a"⟩] : List SimpleStep)))] :=
  ⟨by simp, by decide,
   c2_success_delivers_final_result [⟨.sVal, fun _ => Val.str "a"⟩] 2 (by simp) (by decide)⟩

/-! ## Claim C5 -/

/-- C5 counterexample: in the run
`runVerify(runTimeout(50), okStep, hangingStep, done)` the timer armed by
the directive is still live after `okStep` (the step it was guarding)
advances successfully — the trace arms at position 1, invokes step 1 and
then step 2, and the timer still fires (position 4), failing the run.  This
refutes the claim that every successful step advance disarms the armed
timer, so that it can never fire past the guarded step's advance. -/
theorem c5_timer_fires_after_advance_cex :
    ¬ (∀ (args : List Entry) (t : List Action), runVerifyModel args = .ok t →
        ∀ (i j j2 k : Nat), i < j → j < j2 → j2 < k →
          ∀ (ms ms2 : Nat) (n n2 : Nat) (a a2 : CallArgs),
            t[i]? = some (Action.arm ms) → t[j]? = some (Action.invoke n a) →
            t[j2]? = some (Action.invoke n2 a2) → t[k]? = some (Action.timerFire ms2) →
            False) := by
  intro h
  exact h [runTimeoutFn 50 (fun _ => .ret .undef),
           plainFn 0 arrowSrc0 (fun _ => .ret (.str "a")),
           plainFn 1 (arrowSrc1 "next") (fun _ => .never), doneFn 2]
      [.disarm, .arm 50, .invoke 1 .noArgs, .invoke 2 .cbOnly, .timerFire 50, .disarm,
       .callDone (some ⟨"runVerify: test timeout after 50ms while waiting for run check function number 4"⟩)
         (some .undef)]
      rfl 1 2 3 4 (by decide) (by decide) (by decide) 50 50 1 2 .noArgs .cbOnly
      rfl rfl rfl rfl

/-- C5 (amended): the run-timeout timer is not disarmed by successful step
advances.  In every trace, a `disarm` of the timer happens only immediately
before re-arming (a subsequent timeout directive replacing the live bound)
or immediately before the completion-handler call (run completion); hence
a timer armed by a directive stays live across successful step advances
and can fire while any later step is pending. -/
theorem c5_disarm_only_at_replacement_or_completion (args : List Entry) (t : List Action)
    (h : runVerifyModel args = .ok t) : okDis t = true :=
  okDis_runVerifyModel args t h

/-- Witness for `c5_disarm_only_at_replacement_or_completion`. -/
theorem c5_disarm_only_at_replacement_or_completion_witness :
    okDis [.disarm, .arm 50, .invoke 1 .noArgs, .invoke 2 .cbOnly, .timerFire 50, .disarm,
       .callDone (some ⟨"runVerify: test timeout after 50ms while waiting for run check function number 4"⟩)
         (some .undef)] = true :=
  c5_disarm_only_at_replacement_or_completion
    [runTimeoutFn 50 (fun _ => .ret .undef),
     plainFn 0 arrowSrc0 (fun _ => .ret (.str "a")),
     plainFn 1 (arrowSrc1 "next") (fun _ => .never), doneFn 2] _ rfl

/-! ## Claim C10 -/

/-- C10: the terminal handler receives the final result as its second
argument exactly when it declares more than one parameter; a handler
declaring zero or one parameter is invoked with the error argument alone
and the result is dropped, on success and failure paths alike. -/
theorem c10_result_arg_iff_arity (args : List Entry) (t : List Action)
    (h : runVerifyModel args = .ok t) :
    ∀ p ∈ doneCalls t, (p.2.isSome ↔ 1 < doneArityOf args) :=
  shape_runVerifyModel args t h

/-- Witness for `c10_result_arg_iff_arity` on a unary handler. -/
theorem c10_result_arg_iff_arity_witness :
    (((none : Option JsError), (none : Option Val)).2.isSome
      ↔ 1 < doneArityOf [plainFn 0 arrowSrc0 (fun _ => .ret (.str "a")), doneFn 1]) :=
  c10_result_arg_iff_arity [plainFn 0 arrowSrc0 (fun _ => .ret (.str "a")), doneFn 1]
    [.invoke 0 .noArgs, .disarm, .callDone none none] rfl (none, none) (by decide)

/-! ## Claim C4 -/

theorem detect_noArgs : detectWantCallbackByParamName arrowSrc0 = some false := by decide

theorem detect_next : detectWantCallbackByParamName (arrowSrc1 "next") = some true := by decide

/-- C4 counterexample: a native-async function with exactly two declared
parameters is not invoked with `(result, next)` — the `AsyncFunction` check
precedes the arity check, so the step is classified result-arg only and
invoked with the prior result as its single argument. -/
theorem c4_async_two_param_not_callback_cex :
    traceOf [plainFn 0 arrowSrc0 (fun _ => .ret (.str "s")),
             asyncFn 2 (fun _ => .promiseRes (.str "t")), doneFn 2]
      = [.invoke 0 .noArgs, .invoke 1 (.resOnly (.str "s")), .disarm,
         .callDone none (some (.str "t"))]
    ∧ Action.invoke 1 (CallArgs.resAndCb (.str "s")) ∉
        traceOf [plainFn 0 arrowSrc0 (fun _ => .ret (.str "s")),
                 asyncFn 2 (fun _ => .promiseRes (.str "t")), doneFn 2] :=
  ⟨rfl, by decide⟩

theorem loop_cons_ret0 (cfg : Cfg) (rest : List Entry) (v : Val) (index : Nat)
    (prev : Val) (st : St) (hcr : st.crashed = false) (hfe : st.failError = none) :
    loop cfg (plainFn 0 arrowSrc0 (fun _ => .ret v) :: rest) index prev st
      = loop cfg rest (index + 1) v
          { st with acts := st.acts ++ [.invoke index CallArgs.noArgs] } := by
  simp [loop, plainFn, flagsOf, detect_noArgs, hcr, hfe]

/-- A non-async step of declared arity two that is neither a failure hook
nor a timeout directive is always invoked with `(prior result,
continuation)`, whatever its remaining flags and behaviour. -/
theorem loop_two_param_mem (cfg : Cfg) (rest : List Entry) (w : Wrap) (index : Nat)
    (prev : Val) (st : St) (hcr : st.crashed = false) (hfe : st.failError = none)
    (h2 : w.fn.arity = 2) (hna : w.fn.isAsync = false)
    (hof : w.onFailVerify = false) (hto : w.timeoutMs = none) :
    Action.invoke index (CallArgs.resAndCb prev)
      ∈ (loop cfg (.check w :: rest) index prev st).acts := by
  cases hw : w.isWrapped with
  | false =>
    simp only [loop]
    simp [hcr, hfe, flagsOf, hw, hna, h2, hof, hto]
    repeat' split
    all_goals
      first
        | exact loop_mem _ _ _ _ _ _ (by simp)
        | exact invokeFinallyModel_mem _ _ _ _ _ _ (by simp)
        | exact suspendModel_mem _ _ _ _ (by simp)
  | true =>
    simp only [loop]
    simp [hcr, hfe, flagsOf, hw, hna, h2, hof, hto]
    repeat' split
    all_goals
      first
        | exact loop_mem _ _ _ _ _ _ (by simp)
        | exact invokeFinallyModel_mem _ _ _ _ _ _ (by simp)
        | exact suspendModel_mem _ _ _ _ (by simp)

/-- C4 (amended): every non-native-async main-sequence step with exactly
two declared parameters — not decorated as a finally hook, failure hook or
timeout directive — is classified result-arg and callback-arg: it is
invoked with the prior result as first argument and the continuation as
second, regardless of any other characteristic (its parameter names,
error-expectation or forced-callback flags, or its behaviour). -/
theorem c4_two_param_gets_result_and_callback (w : Wrap) (v : Val)
    (h2 : w.fn.arity = 2) (hna : w.fn.isAsync = false) (hfin : w.isFinally = false)
    (hof : w.onFailVerify = false) (hto : w.timeoutMs = none) :
    ∃ t, runVerifyModel [plainFn 0 arrowSrc0 (fun _ => .ret v), .check w, doneFn 2] = .ok t
      ∧ Action.invoke 1 (CallArgs.resAndCb v) ∈ t := by
  have hcfg : mkCfg [plainFn 0 arrowSrc0 (fun _ => .ret v), .check w, doneFn 2]
      = ⟨[plainFn 0 arrowSrc0 (fun _ => .ret v), .check w], [], 2, true⟩ := by
    simp [mkCfg, isFinallyEntry, hfin, doneFn, plainFn, doneArityOfEntry, doneCallableOfEntry]
  refine ⟨(loop ⟨[plainFn 0 arrowSrc0 (fun _ => .ret v), .check w], [], 2, true⟩
            [plainFn 0 arrowSrc0 (fun _ => .ret v), .check w] 0 .undef {}).acts, ?_, ?_⟩
  · simp only [runVerifyModel]
    rw [show (List.filter (fun x => !isFinallyEntry x)
          [plainFn 0 arrowSrc0 (fun _ => .ret v), .check w, doneFn 2])
        = [plainFn 0 arrowSrc0 (fun _ => .ret v), .check w, doneFn 2] from by
          simp [isFinallyEntry, hfin, plainFn, doneFn]]
    rw [if_neg (by simp)]
    rw [hcfg]
  · rw [loop_cons_ret0 _ _ v 0 .undef {} rfl rfl]
    exact loop_two_param_mem _ [] w 1 v _ rfl rfl h2 hna hof hto

/-- Witness for `c4_two_param_gets_result_and_callback` on a decorated
two-parameter callback step. -/
theorem c4_two_param_gets_result_and_callback_witness :
    ∃ t, runVerifyModel [plainFn 0 arrowSrc0 (fun _ => .ret (.str "v")),
        .check { fn := { arity := 2, isAsync := false, src := arrowSrcP "a, b",
                         body := fun _ => .nextOk (.str "w") },
                 isWrapped := true, withCallback := true },
        doneFn 2] = .ok t
      ∧ Action.invoke 1 (CallArgs.resAndCb (.str "v")) ∈ t :=
  c4_two_param_gets_result_and_callback
    { fn := { arity := 2, isAsync := false, src := arrowSrcP "a, b",
              body := fun _ => .nextOk (.str "w") },
      isWrapped := true, withCallback := true }
    (.str "v") rfl rfl rfl rfl rfl

/-! ## Claim C3 -/

/-- How an expect-error step produces its error: a synchronous throw, a
rejecting promise, or a continuation called with the error. -/
inductive ErrProd where
  | byThrow : ErrProd
  | byReject : ErrProd
  | byCallback : ErrProd
deriving DecidableEq, Repr

/-- An error-expectation-decorated step producing error `e` via `p`. -/
def mkExpectStep (p : ErrProd) (mode : ExpectMode) (e : JsError) : Entry :=
  match p with
  | .byThrow => expectErrorFn mode 0 arrowSrc0 (fun _ => .thr e)
  | .byReject => expectErrorFn mode 0 arrowSrc0 (fun _ => .promiseRej e)
  | .byCallback => expectErrorFn mode 1 (arrowSrc1 "next") (fun _ => .nextErr e)

/-- The argument shape the expect-error step is invoked with. -/
def prodArgs : ErrProd → CallArgs
  | .byThrow => .noArgs
  | .byReject => .noArgs
  | .byCallback => .cbOnly

/-- How an expect-error step completes without producing an error: a
synchronous return, a resolving promise, or a continuation called without
an error. -/
inductive OkProd where
  | byRet : OkProd
  | byResolve : OkProd
  | byCallbackOk : OkProd
deriving DecidableEq, Repr

/-- An error-expectation-decorated step that completes successfully with
value `v` via `p`. -/
def mkExpectOkStep (p : OkProd) (mode : ExpectMode) (v : Val) : Entry :=
  match p with
  | .byRet => expectErrorFn mode 0 arrowSrc0 (fun _ => .ret v)
  | .byResolve => expectErrorFn mode 0 arrowSrc0 (fun _ => .promiseRes v)
  | .byCallbackOk => expectErrorFn mode 1 (arrowSrc1 "next") (fun _ => .nextOk v)

/-- The argument shape the non-failing expect-error step is invoked
with. -/
def okProdArgs : OkProd → CallArgs
  | .byRet => .noArgs
  | .byResolve => .noArgs
  | .byCallbackOk => .cbOnly

/-- The produced error satisfies the decoration's message check: mode `any`
always, `has` when the expected text is a substring, `toBe` when the
message is exactly the expected text. -/
def modeOk : ExpectMode → JsError → Prop
  | .noneE, _ => False
  | .anyE, _ => True
  | .has m, e => strHasSub e.message m = true
  | .toBe m, e => e.message = m

/-- C3 counterexample: a step decorated with `expectErrorHas(fn, "xyz")`
that throws `"abc"` produced an error, yet that error is not forwarded and
the run does not continue — it fails with the expectation-violation
message, refuting the claim for message-checked error expectations. -/
theorem c3_message_check_fails_run_cex :
    doneCalls (traceOf [expectErrorFn (.has "xyz") 0 arrowSrc0 (fun _ => .thr ⟨"abc"⟩),
        plainFn 1 (arrowSrc1 "r") (fun v => .ret v), doneFn 2])
      = [(some ⟨"runVerify expecting error with message has 'xyz'"⟩, some .undef)]
    ∧ Action.invoke 1 (CallArgs.resOnly (.error ⟨"abc"⟩)) ∉
        traceOf [expectErrorFn (.has "xyz") 0 arrowSrc0 (fun _ => .thr ⟨"abc"⟩),
          plainFn 1 (arrowSrc1 "r") (fun v => .ret v), doneFn 2] :=
  ⟨rfl, by decide⟩

/-- C3 (amended): for every step decorated with an error expectation whose
configured message check passes (always, for the plain `expectError`
decoration): if the step throws, rejects, or calls its continuation with an
error, that error becomes the result forwarded to the next step and the run
continues (and here completes successfully); if the configured message
check fails, or the step completes without producing an error, the run
fails — in the latter case with an error naming the step's 0-based
ordinal. -/
theorem c3_expect_error_forwards_or_fails :
    (∀ (p : ErrProd) (mode : ExpectMode) (e : JsError), modeOk mode e →
      runVerifyModel [mkExpectStep p mode e,
          plainFn 1 (arrowSrc1 "r") (fun v => .ret v), doneFn 2]
        = .ok [.invoke 0 (prodArgs p), .invoke 1 (.resOnly (.error e)), .disarm,
               .callDone none (some (.error e))])
    ∧ (∀ (p : OkProd) (mode : ExpectMode) (v : Val), mode ≠ .noneE →
      runVerifyModel [mkExpectOkStep p mode v, doneFn 2]
        = .ok [.invoke 0 (okProdArgs p), .disarm,
               .callDone (some (failExpectErrorMsg 0)) (some .undef)]) := by
  constructor
  · intro p mode e hm
    cases p <;> cases mode <;>
      first
        | exact hm.elim
        | (simp only [modeOk] at hm
           simp [runVerifyModel, mkCfg, mkExpectStep, expectErrorFn, plainFn, doneFn,
            isFinallyEntry, doneArityOfEntry, doneCallableOfEntry, loop, flagsOf,
            detect_noArgs, detect_next,
            detect_result_param, expectCheckOutcome, hm, invokeFinallyModel, onFailObserve,
            finishRun, runFin, invokeDoneModel, prodArgs, hm])
  · intro p mode v hm
    cases p <;>
      simp [runVerifyModel, mkCfg, mkExpectOkStep, expectErrorFn, plainFn, doneFn,
        isFinallyEntry, doneArityOfEntry, doneCallableOfEntry, loop, flagsOf,
        detect_noArgs, detect_next,
        expectCheckOutcome, hm, invokeFinallyModel, onFailObserve,
        finishRun, runFin, invokeDoneModel, okProdArgs, failExpectErrorMsg]

/-- Witness for `c3_expect_error_forwards_or_fails` at the specification's
own example (`expectErrorHas(s, "oo failed")` with a rejection
`"foo failed"`) and at a plain `expectError` step that returns. -/
theorem c3_expect_error_forwards_or_fails_witness :
    runVerifyModel [mkExpectStep .byReject (.has "oo failed") ⟨"foo failed"⟩,
        plainFn 1 (arrowSrc1 "r") (fun v => .ret v), doneFn 2]
      = .ok [.invoke 0 (prodArgs .byReject),
             .invoke 1 (.resOnly (.error ⟨"foo failed"⟩)), .disarm,
             .callDone none (some (.error ⟨"foo failed"⟩))]
    ∧ runVerifyModel [mkExpectOkStep .byRet .anyE (.str "x"), doneFn 2]
      = .ok [.invoke 0 (okProdArgs .byRet), .disarm,
             .callDone (some (failExpectErrorMsg 0)) (some .undef)] :=
  ⟨c3_expect_error_forwards_or_fails.1 .byReject (.has "oo failed") ⟨"foo failed"⟩
     (by decide : strHasSub "foo failed" "oo failed" = true),
   c3_expect_error_forwards_or_fails.2 .byRet .anyE (.str "x") (by decide)⟩

/-! ## Claim C6 -/

/-- C6 counterexample: with a main-sequence failure `"boom"` and a finally
hook returning an awaitable that rejects with `"hookerr"`, the run reports
`"boom"` — the rejected hook does not supersede the pre-existing
main-sequence failure (`if (!error) error = err2` adopts the rejection only
when no error is latched). -/
theorem c6_rejected_hook_does_not_supersede_cex :
    doneCalls (traceOf [plainFn 0 arrowSrc0 (fun _ => .thr ⟨"boom"⟩), doneFn 2,
        runFinallyFn (fun _ => .promiseRej ⟨"hookerr"⟩)])
      = [(some ⟨"boom"⟩, some .undef)]
    ∧ (some (⟨"boom"⟩ : JsError)) ≠ some ⟨"hookerr"⟩ :=
  ⟨rfl, by decide⟩

/-- C6 (amended): the completion path reports exactly
`reportedError err hookOutcomes`: a finally hook that throws
*synchronously* makes its error the run's reported error, superseding both
a pre-existing main-sequence failure and a success; a hook that returns a
*rejecting awaitable* becomes the reported error only when the main
sequence produced no error (it supersedes success but not a pre-existing
failure).  The terminal handler is required to be callable — with a
non-function terminal argument the completion call itself throws instead
of reporting anything (see C9). -/
theorem c6_finalizer_error_policy (cfg : Cfg) (st : St) (index : Nat)
    (err : Option JsError) (r : Val) (hcr : st.crashed = false) (hcm : st.completed = false)
    (hcall : cfg.doneCallable = true) (hidx : cfg.steps[index]? = none)
    (hnh : hasHang (startedOuts (finOutcomesOf cfg.fin)) = false) :
    doneCalls (invokeFinallyModel cfg st index err r).acts
      = doneCalls st.acts ++
        [(reportedError err (finOutcomesOf cfg.fin),
          if 1 < cfg.doneArity then some r else none)] :=
  invokeFinallyModel_reportAll cfg st index err r hcr hcm hcall hidx hnh

/-- Witness for `c6_finalizer_error_policy` with a failed main sequence and
one rejecting hook. -/
theorem c6_finalizer_error_policy_witness :
    doneCalls (invokeFinallyModel
        ⟨[], [runFinallyFn (fun _ => .promiseRej ⟨"hookerr"⟩)], 2, true⟩
        {} 0 (some ⟨"boom"⟩) .undef).acts
      = doneCalls ({} : St).acts ++
        [(reportedError (some ⟨"boom"⟩)
            (finOutcomesOf [runFinallyFn (fun _ => .promiseRej ⟨"hookerr"⟩)]),
          if 1 < (2 : Nat) then some Val.undef else none)] :=
  c6_finalizer_error_policy ⟨[], [runFinallyFn (fun _ => .promiseRej ⟨"hookerr"⟩)], 2, true⟩
    {} 0 (some ⟨"boom"⟩) .undef rfl rfl rfl rfl rfl

/-! ## Claim C7 -/

/-- C7 counterexample: with two finally hooks of which the first throws
synchronously, the second hook is never started even though the run
completes — one hook's failure does prevent the remaining hooks from
starting. -/
theorem c7_sync_throwing_hook_blocks_rest_cex :
    Action.invokeFinallyCb 0 ∈ traceOf [plainFn 0 arrowSrc0 (fun _ => .ret .undef), doneFn 2,
        runFinallyFn (fun _ => .thr ⟨"h0"⟩), runFinallyFn (fun _ => .ret (.str "x"))]
    ∧ Action.invokeFinallyCb 1 ∉ traceOf [plainFn 0 arrowSrc0 (fun _ => .ret .undef), doneFn 2,
        runFinallyFn (fun _ => .thr ⟨"h0"⟩), runFinallyFn (fun _ => .ret (.str "x"))]
    ∧ countDone (traceOf [plainFn 0 arrowSrc0 (fun _ => .ret .undef), doneFn 2,
        runFinallyFn (fun _ => .thr ⟨"h0"⟩), runFinallyFn (fun _ => .ret (.str "x"))]) = 1 :=
  ⟨by decide, by decide, rfl⟩

theorem runFin_all (l : List Entry) :
    firstSyncThrow (finOutcomesOf l) = none →
    ∀ (i : Nat), ∀ j < l.length, Action.invokeFinallyCb (i + j) ∈ (runFin l i).1 := by
  induction l with
  | nil =>
    intro _ i j hj
    simp at hj
  | cons e rest ih =>
    intro hnt i j hj
    cases hfo : finOutcome ((wrapOf e).fn.body .undef) with
    | syncThrow e2 =>
      exact absurd hnt (by simp [finOutcomesOf, hfo, firstSyncThrow])
    | value v =>
      have hnt2 : firstSyncThrow (finOutcomesOf rest) = none := by
        simpa [finOutcomesOf, firstSyncThrow, hfo] using hnt
      simp only [runFin, hfo]
      cases j with
      | zero => simp
      | succ j2 =>
        have hi : i + (j2 + 1) = (i + 1) + j2 := by omega
        rw [hi]
        exact List.mem_cons_of_mem _
          (ih hnt2 (i + 1) j2 (Nat.lt_of_succ_lt_succ (by simpa using hj)))
    | awaitRes v =>
      have hnt2 : firstSyncThrow (finOutcomesOf rest) = none := by
        simpa [finOutcomesOf, firstSyncThrow, hfo] using hnt
      simp only [runFin, hfo]
      cases j with
      | zero => simp
      | succ j2 =>
        have hi : i + (j2 + 1) = (i + 1) + j2 := by omega
        rw [hi]
        exact List.mem_cons_of_mem _
          (ih hnt2 (i + 1) j2 (Nat.lt_of_succ_lt_succ (by simpa using hj)))
    | awaitRej e2 =>
      have hnt2 : firstSyncThrow (finOutcomesOf rest) = none := by
        simpa [finOutcomesOf, firstSyncThrow, hfo] using hnt
      simp only [runFin, hfo]
      cases j with
      | zero => simp
      | succ j2 =>
        have hi : i + (j2 + 1) = (i + 1) + j2 := by omega
        rw [hi]
        exact List.mem_cons_of_mem _
          (ih hnt2 (i + 1) j2 (Nat.lt_of_succ_lt_succ (by simpa using hj)))
    | awaitHang =>
      have hnt2 : firstSyncThrow (finOutcomesOf rest) = none := by
        simpa [finOutcomesOf, firstSyncThrow, hfo] using hnt
      simp only [runFin, hfo]
      cases j with
      | zero => simp
      | succ j2 =>
        have hi : i + (j2 + 1) = (i + 1) + j2 := by omega
        rw [hi]
        exact List.mem_cons_of_mem _
          (ih hnt2 (i + 1) j2 (Nat.lt_of_succ_lt_succ (by simpa using hj)))

theorem finishRun_mem_fin (cfg : Cfg) (st : St) (e1 : Option JsError) (r : Val)
    (x : Action) (h : x ∈ (runFin cfg.fin 0).1) : x ∈ (finishRun cfg st e1 r).acts := by
  have hmid : x ∈ ({ st with acts := st.acts ++ (runFin cfg.fin 0).1 } : St).acts :=
    List.mem_append_right _ h
  simp only [finishRun]
  split
  · exact invokeDoneModel_mem _ _ _ _ _ hmid
  · split
    · exact invokeDoneModel_mem _ _ _ _ _ hmid
    · split
      · exact hmid
      · exact invokeDoneModel_mem _ _ _ _ _ hmid

/-- C7 (amended): the finalizer collects every finally-hook entry wherever
it appears among the arguments and runs at every completion, on the success
and failure paths alike; provided no hook throws synchronously, every hook
is invoked, and awaitable hook results are awaited collectively (a
rejecting awaitable does not prevent the others — they were all already
started).  A synchronously-throwing hook, however, stops the remaining
hooks from starting (see the counterexample). -/
theorem c7_all_hooks_invoked (args : List Entry) (st : St) (index : Nat)
    (err : Option JsError) (r : Val) (hcr : st.crashed = false) (hcm : st.completed = false)
    (hnt : firstSyncThrow (finOutcomesOf (args.filter (fun x => isFinallyEntry x))) = none) :
    ∀ j < (args.filter (fun x => isFinallyEntry x)).length,
      Action.invokeFinallyCb j ∈ (invokeFinallyModel (mkCfg args) st index err r).acts := by
  intro j hj
  have hmem : Action.invokeFinallyCb j ∈ (runFin (mkCfg args).fin 0).1 := by
    simpa using runFin_all (args.filter (fun x => isFinallyEntry x)) hnt 0 j hj
  unfold invokeFinallyModel
  rw [hcr, hcm]
  simp only [Bool.false_eq_true, if_false]
  exact finishRun_mem_fin _ _ _ _ _ hmem

/-- Witness for `c7_all_hooks_invoked`: hooks declared before and after the
main steps both run on a failure completion. -/
theorem c7_all_hooks_invoked_witness :
    Action.invokeFinallyCb 1 ∈
      (invokeFinallyModel
        (mkCfg [runFinallyFn (fun _ => .ret (.str "x")),
                plainFn 0 arrowSrc0 (fun _ => .ret .undef), doneFn 2,
                runFinallyFn (fun _ => .promiseRes .undef)])
        {} 0 (some ⟨"e"⟩) .undef).acts :=
  c7_all_hooks_invoked [runFinallyFn (fun _ => .ret (.str "x")),
      plainFn 0 arrowSrc0 (fun _ => .ret .undef), doneFn 2,
      runFinallyFn (fun _ => .promiseRes .undef)]
    {} 0 (some ⟨"e"⟩) .undef rfl rfl rfl 1 (by decide)

/-! ## No exception escapes the engine on well-behaved runs -/

/-- A wrapped function that never throws, whatever it is invoked with. -/
def timerSafeWrap (w : Wrap) : Prop :=
  ∀ (v : Val) (e : JsError), w.fn.body v ≠ FnBody.thr e

/-- An entry that cannot put a throwing function behind the run-timeout
timer: any entry that is not a timeout directive, or a timeout directive
whose attached function never throws.  (A throw from that function at
timer expiry escapes the timer callback uncaught and the timeout error is
then delivered through no channel — see the C9 counterexample.) -/
def timerSafeEntry : Entry → Prop
  | .check w => w.isWrapped = true → w.timeoutMs.isSome = true → timerSafeWrap w
  | .nonFn _ _ => True

/-- Invariant: no exception has escaped the engine so far, and the armed
run-timeout timer (if any) holds a directive function that never
throws. -/
def UncInv (st : St) : Prop :=
  (∀ e : JsError, Action.uncaught e ∉ st.acts)
  ∧ (∀ (ms : Nat) (w : Wrap), st.timer = some (ms, w) → timerSafeWrap w)

theorem UncInv_update (st : St) (f : Option JsError) (t : Option (Nat × Wrap))
    (d : List Action) (hd : ∀ e : JsError, Action.uncaught e ∉ d)
    (ht : ∀ (ms : Nat) (w : Wrap), t = some (ms, w) → timerSafeWrap w)
    (h : UncInv st) :
    UncInv { failError := f, completed := st.completed, crashed := st.crashed,
             timer := t, acts := st.acts ++ d } := by
  refine ⟨fun e hmem => ?_, ht⟩
  rcases List.mem_append.mp hmem with h1 | h1
  · exact h.1 e h1
  · exact hd e h1

theorem uncaught_not_mem_runFin (l : List Entry) (i : Nat) (e : JsError) :
    Action.uncaught e ∉ (runFin l i).1 := by
  induction l generalizing i with
  | nil => simp [runFin]
  | cons x rest ih =>
    simp only [runFin]
    split
    · simp
    · intro hmem
      rcases List.mem_cons.mp hmem with h1 | h1
      · exact absurd h1 (by simp)
      · exact ih (i + 1) h1

theorem uncaught_not_mem_onFailObserve (cfg : Cfg) (index : Nat) (err : Option JsError)
    (e : JsError) : Action.uncaught e ∉ (onFailObserve cfg index err).2 := by
  simp only [onFailObserve]
  repeat' split
  all_goals simp

theorem invokeDoneModel_unc (cfg : Cfg) (st : St) (err : Option JsError) (r : Val)
    (hcall : cfg.doneCallable = true) (h : UncInv st) :
    UncInv (invokeDoneModel cfg st err r) := by
  unfold invokeDoneModel
  split
  · refine ⟨fun e hmem => ?_, fun ms w hw => by simp at hw⟩
    rcases List.mem_append.mp hmem with h1 | h1
    · exact h.1 e h1
    · simp at h1
  · next hnc => exact absurd hcall hnc

theorem finishRun_unc (cfg : Cfg) (st : St) (e1 : Option JsError) (r : Val)
    (hcall : cfg.doneCallable = true) (h : UncInv st) : UncInv (finishRun cfg st e1 r) := by
  have hmid : UncInv { st with acts := st.acts ++ (runFin cfg.fin 0).1 } := by
    refine ⟨fun e hmem => ?_, h.2⟩
    rcases List.mem_append.mp hmem with h1 | h1
    · exact h.1 e h1
    · exact uncaught_not_mem_runFin _ _ _ h1
  simp only [finishRun]
  split
  · exact invokeDoneModel_unc _ _ _ _ hcall hmid
  · split
    · exact invokeDoneModel_unc _ _ _ _ hcall hmid
    · split
      · exact hmid
      · exact invokeDoneModel_unc _ _ _ _ hcall hmid

theorem invokeFinallyModel_unc (cfg : Cfg) (st : St) (index : Nat) (err : Option JsError)
    (r : Val) (hcall : cfg.doneCallable = true) (h : UncInv st) :
    UncInv (invokeFinallyModel cfg st index err r) := by
  unfold invokeFinallyModel
  split
  · exact h
  · split
    · refine ⟨fun e hmem => ?_, h.2⟩
      rcases List.mem_append.mp hmem with h1 | h1
      · exact h.1 e h1
      · simp at h1
    · apply finishRun_unc _ _ _ _ hcall
      refine ⟨fun e hmem => ?_, h.2⟩
      rcases List.mem_append.mp hmem with h1 | h1
      · exact h.1 e h1
      · exact uncaught_not_mem_onFailObserve _ _ _ _ h1

theorem suspendModel_unc (cfg : Cfg) (st : St) (index : Nat)
    (hcall : cfg.doneCallable = true) (h : UncInv st) :
    UncInv (suspendModel cfg st index) := by
  simp only [suspendModel]
  split
  · exact h
  · next ms dirW heq =>
    have hsafe : timerSafeWrap dirW := h.2 ms dirW heq
    split
    · next e2 hbody => exact absurd hbody (hsafe _ _)
    · apply invokeFinallyModel_unc _ _ _ _ _ hcall
      refine ⟨fun e hmem => ?_, ?_⟩
      · rcases List.mem_append.mp hmem with h1 | h1
        · exact h.1 e h1
        · simp at h1
      · intro ms2 w2 hw2
        simp only at hw2
        rw [heq] at hw2
        simp only [Option.some.injEq, Prod.mk.injEq] at hw2
        rw [← hw2.2]
        exact hsafe

theorem afterParseFail_unc (cfg : Cfg) (st : St) (index : Nat) (fn : CheckFn) (prev : Val)
    (w : Bool) (flags : Wrap) (hcall : cfg.doneCallable = true) (h : UncInv st) :
    UncInv (afterParseFail cfg st index fn prev w flags) := by
  simp only [afterParseFail]
  repeat' split
  all_goals
    first
      | exact UncInv_update st _ _ _ (by intro e2 hm; simp at hm) h.2 h
      | exact invokeFinallyModel_unc _ _ _ _ _ hcall
          (UncInv_update st _ _ _ (by intro e2 hm; simp at hm) h.2 h)
      | exact suspendModel_unc _ _ _ hcall
          (UncInv_update st _ _ _ (by intro e2 hm; simp at hm) h.2 h)

set_option maxHeartbeats 1000000 in
theorem loop_unc (cfg : Cfg) (hcall : cfg.doneCallable = true) (rest : List Entry) :
    ∀ (index : Nat) (prev : Val) (st : St),
      (∀ x ∈ rest, timerSafeEntry x) → UncInv st →
      UncInv (loop cfg rest index prev st) := by
  induction rest with
  | nil =>
    intro index prev st _ h
    simp only [loop]
    repeat' split
    all_goals first
      | exact h
      | exact invokeFinallyModel_unc _ _ _ _ _ hcall h
  | cons e rest ih =>
    intro index prev st hsafe h
    have hsafe2 : ∀ x ∈ rest, timerSafeEntry x :=
      fun x hx => hsafe x (List.mem_cons_of_mem _ hx)
    cases e with
    | nonFn tof len =>
      simp only [loop]
      split
      · exact h
      split
      · exact h
      exact invokeFinallyModel_unc _ _ _ _ _ hcall h
    | check w =>
      have hw : timerSafeEntry (Entry.check w) := hsafe _ (List.mem_cons_self _ _)
      simp only [timerSafeEntry] at hw
      simp only [loop]
      split
      · exact h
      split
      · exact h
      by_cases h1 : (w.isWrapped && (flagsOf w).onFailVerify) = true
      · rw [if_pos h1]
        exact ih _ _ _ hsafe2 h
      rw [if_neg h1]
      by_cases h2 : (w.isWrapped && (flagsOf w).timeoutMs.isSome) = true
      · rw [if_pos h2]
        refine ih _ _ _ hsafe2 ?_
        refine UncInv_update st _ _ _ (by intro e2 hm; simp at hm) ?_ h
        intro ms2 w2 hw2
        simp only [Option.some.injEq, Prod.mk.injEq] at hw2
        have h2' := h2
        rw [Bool.and_eq_true] at h2'
        have hwr : w.isWrapped = true := h2'.1
        have hto : w.timeoutMs.isSome = true := by
          have h3 := h2'.2
          simpa [flagsOf, hwr] using h3
        rw [← hw2.2]
        exact hw hwr hto
      rw [if_neg h2]
      repeat' split
      all_goals first
        | exact h
        | exact invokeFinallyModel_unc _ _ _ _ _ hcall h
        | exact ih _ _ _ hsafe2 h
        | exact ih _ _ _ hsafe2
            (UncInv_update st _ _ _ (by intro e2 hm; simp at hm) h.2 h)
        | exact invokeFinallyModel_unc _ _ _ _ _ hcall
            (UncInv_update st _ _ _ (by intro e2 hm; simp at hm) h.2 h)
        | exact suspendModel_unc _ _ _ hcall
            (UncInv_update st _ _ _ (by intro e2 hm; simp at hm) h.2 h)
        | exact afterParseFail_unc _ _ _ _ _ _ _ hcall
            (invokeFinallyModel_unc _ _ _ _ _ hcall h)

theorem unc_runVerifyModel (args : List Entry) (t : List Action)
    (h : runVerifyModel args = .ok t) (hcall : doneCallableOf args = true)
    (hsafe : ∀ x ∈ args, timerSafeEntry x) :
    ∀ e : JsError, Action.uncaught e ∉ t := by
  simp only [runVerifyModel] at h
  split at h
  · exact absurd h (by simp)
  · have hsteps : ∀ x ∈ (mkCfg args).steps, timerSafeEntry x := by
      intro x hx
      have hx2 : x ∈ (args.filter fun y => !isFinallyEntry y).dropLast := hx
      exact hsafe x (List.mem_of_mem_filter (List.dropLast_subset _ hx2))
    have h1 := loop_unc (mkCfg args) hcall (mkCfg args).steps 0 .undef {}
      hsteps ⟨fun e hm => by simp at hm, fun ms w hw => by simp at hw⟩
    have ht : t = (loop (mkCfg args) (mkCfg args).steps 0 .undef {}).acts := by
      simpa using h.symm
    intro e
    rw [ht]
    exact h1.1 e

/-! ## Claim C9 -/

/-- C9 counterexample: three members of the error taxonomy escape the
claimed single-channel delivery, each at a concrete run.  (i) With a single
non-finally entry the configuration error escapes the callback-style entry
as a synchronous throw (`throw errorMsg(...)` in `_runVerify`), reaching no
completion channel.  (ii) With the terminal argument a non-function string
of `.length` 4 (such as `"oops"`), the run's own failure (`"boom"`) is
delivered through no channel at all: `invokeDone`'s call of the
non-callable terminal argument throws a `TypeError` which — completion
being synchronous here — escapes the entry call itself.  (iii) With a
`runTimeout` directive whose attached function throws at expiry, the
timeout failure is likewise delivered through no channel: the throw
escapes the timer callback uncaught and the completion notifier never
runs. -/
theorem c9_errors_escape_channels_cex :
    runVerifyModel [plainFn 1 (arrowSrc1 "r") (fun v => .ret v)]
      = .error ⟨"runVerify - must pass done function"⟩
    ∧ runVerifyModel [plainFn 0 arrowSrc0 (fun _ => .thr ⟨"boom"⟩), .nonFn "string" 4]
      = .ok [.invoke 0 .noArgs, .disarm, .uncaught doneTypeErr]
    ∧ countDone [.invoke 0 .noArgs, .disarm, .uncaught doneTypeErr] = 0
    ∧ runVerifyModel [runTimeoutFn 50 (fun _ => .thr ⟨"cbthrow"⟩),
        plainFn 1 (arrowSrc1 "next") (fun _ => .never), doneFn 2]
      = .ok [.disarm, .arm 50, .invoke 1 .cbOnly, .timerFire 50, .uncaught ⟨"cbthrow"⟩]
    ∧ countDone [.disarm, .arm 50, .invoke 1 .cbOnly, .timerFire 50,
        .uncaught ⟨"cbthrow"⟩] = 0 :=
  ⟨rfl, rfl, rfl, rfl, rfl⟩

/-- C9 (amended): delivery is at most once, and single-channel only on
well-behaved runs.  With at least two non-finally entries, a terminal
argument that is an actual function, and no timeout directive carrying a
throwing function, the callback-style entry never throws: the run executes,
its trace contains at most one completion-handler call (the single delivery
channel; the promise-style entry's rejection is exactly that handler's
error slot), and no exception escapes the engine — the double-completion
assertion being the excepted programming-error path.  Outside those
conditions an error bypasses both channels: with fewer than two non-finally
entries the configuration error is thrown synchronously out of the
callback-style entry, while the promise-style entry converts that throw
into a rejection of the returned promise; a non-callable terminal argument
and a throwing timeout-directive function each leave the run's error
undelivered, the escaping exception recorded in the trace (see the
counterexample). -/
theorem c9_at_most_one_channel_and_escape_cases :
    (∀ args : List Entry, 2 ≤ (args.filter (fun x => !isFinallyEntry x)).length →
      doneCallableOf args = true →
      (∀ x ∈ args, timerSafeEntry x) →
      ∃ t, runVerifyModel args = .ok t ∧ countDone t ≤ 1
        ∧ ∀ e : JsError, Action.uncaught e ∉ t)
    ∧ (∀ args : List Entry, (args.filter (fun x => !isFinallyEntry x)).length < 2 →
      runVerifyModel args = .error ⟨"runVerify - must pass done function"⟩)
    ∧ asyncVerifyModel [] = .rejected ⟨"runVerify - must pass done function"⟩ := by
  refine ⟨?_, ?_, rfl⟩
  · intro args h hcall hsafe
    have hok : runVerifyModel args
        = .ok (loop (mkCfg args) (mkCfg args).steps 0 .undef {}).acts := by
      simp only [runVerifyModel]
      rw [if_neg (by omega)]
    exact ⟨_, hok, countDone_runVerifyModel args _ hok,
      unc_runVerifyModel args _ hok hcall hsafe⟩
  · intro args h
    simp only [runVerifyModel]
    rw [if_pos h]

/-- Witness for `c9_at_most_one_channel_and_escape_cases` at a two-entry
run and a one-entry run. -/
theorem c9_at_most_one_channel_and_escape_cases_witness :
    (∃ t, runVerifyModel [plainFn 0 arrowSrc0 (fun _ => .ret (.str "a")), doneFn 2] = .ok t
      ∧ countDone t ≤ 1 ∧ ∀ e : JsError, Action.uncaught e ∉ t)
    ∧ runVerifyModel [doneFn 2] = .error ⟨"runVerify - must pass done function"⟩ :=
  ⟨c9_at_most_one_channel_and_escape_cases.1
      [plainFn 0 arrowSrc0 (fun _ => .ret (.str "a")), doneFn 2] (by decide) (by decide)
      (by
        intro x hx
        rcases List.mem_cons.mp hx with h1 | hx2
        · subst h1
          simp [timerSafeEntry, plainFn]
        · rcases List.mem_cons.mp hx2 with h1 | h3
          · subst h1
            simp [timerSafeEntry, doneFn, plainFn]
          · simp at h3),
   c9_at_most_one_channel_and_escape_cases.2.1 [doneFn 2] (by decide)⟩

/-! ## Claim C8 -/

/-- C8 counterexample: two bare defers already settled (with values
`"done1"`, `"done2"`) by the time the main sequence reaches the end of the
step list: the run completes from the end-of-list check with the threaded
result — `undefined` — instead of the declaration-ordered list of settled
values, so the claimed result does depend on settlement timing. -/
theorem c8_all_early_settlement_cex :
    bareDeferRun [.str "done1", .str "done2"] [] = some (none, .undef)
    ∧ Val.undef ≠ .list (.cons (.str "done1") (.cons (.str "done2") .nil)) :=
  ⟨rfl, by decide⟩

theorem settleAll_spec (vals : List Val) :
    ∀ (rem : List Nat) (states : List DeferSt),
      rem ≠ [] → rem.Nodup → (∀ i ∈ rem, i < vals.length) →
      states.length = vals.length →
      (∀ j d, states[j]? = some d →
        (d.invoked = !decide (j ∈ rem)) ∧ (d.invoked = true → vals[j]? = some d.result)) →
      settleAll vals rem states = some (none, collapseResults vals) := by
  intro rem
  induction rem with
  | nil => intro states h _ _ _ _; exact absurd rfl h
  | cons i rest ih =>
    intro states _ hnd hbound hlen hinv
    have hndc := List.nodup_cons.mp hnd
    have hi : i < vals.length := hbound i (List.mem_cons_self i rest)
    have hiS : i < states.length := by omega
    obtain ⟨d, hd⟩ : ∃ d, states[i]? = some d := ⟨_, List.getElem?_eq_getElem hiS⟩
    have hinv_i := hinv i d hd
    have hnotinv : d.invoked = false := by
      have h1 := hinv_i.1
      simp [List.mem_cons] at h1
      exact h1
    set v := vals[i]?.getD .undef with hv
    set states' := states.set i { invoked := true, result := v } with hs
    have hlen' : states'.length = vals.length := by simp [hs, hlen]
    have hinv' : ∀ j d2, states'[j]? = some d2 →
        (d2.invoked = !decide (j ∈ rest)) ∧ (d2.invoked = true → vals[j]? = some d2.result) := by
      intro j d2 hj
      by_cases hij : i = j
      · subst hij
        have hj2 : states'[i]? = some ({ invoked := true, result := v } : DeferSt) := by
          rw [hs]
          simp [List.getElem?_set_self, hiS]
        rw [hj2] at hj
        injection hj with hj
        subst hj
        constructor
        · simp [hndc.1]
        · intro _
          rw [hv, List.getElem?_eq_getElem hi]
          simp
      · have hj2 : states'[j]? = states[j]? := by
          rw [hs]
          simp [List.getElem?_set_ne, hij]
        rw [hj2] at hj
        have h2 := hinv j d2 hj
        refine ⟨?_, h2.2⟩
        rw [h2.1]
        simp [List.mem_cons, Ne.symm hij]
    cases rest with
    | nil =>
      have hall : states'.all (·.invoked) = true := by
        rw [List.all_eq_true]
        intro x hx
        obtain ⟨jx, hjx⟩ : ∃ jx : Nat, states'[jx]? = some x := by
          obtain ⟨ix, hix, he⟩ := List.mem_iff_getElem.mp hx
          exact ⟨ix, by simp [List.getElem?_eq_getElem, hix, he]⟩
        have := (hinv' jx x hjx).1
        simpa using this
      have hmap : states'.map (·.result) = vals := by
        apply List.ext_getElem?
        intro j
        by_cases hjl : j < vals.length
        · have hjs : j < states'.length := by omega
          obtain ⟨d2, hd2⟩ : ∃ d2, states'[j]? = some d2 :=
            ⟨_, List.getElem?_eq_getElem hjs⟩
          have hinvj := hinv' j d2 hd2
          have : d2.invoked = true := by
            rw [hinvj.1]
            simp
          rw [List.getElem?_map, hd2, hinvj.2 this]
          rfl
        · rw [List.getElem?_map]
          have h1 : states'[j]? = none := by
            rw [List.getElem?_eq_none_iff]
            omega
          have h2 : vals[j]? = none := by
            rw [List.getElem?_eq_none_iff]
            omega
          rw [h1, h2]
          rfl
      simp only [settleAll, onDeferResolveEnd, hd, hnotinv, Bool.false_eq_true, if_false,
        ← hv, ← hs, hall, if_true, hmap]
    | cons r t =>
      have hrl : r < vals.length := hbound r (by simp)
      have hrs : r < states'.length := by omega
      obtain ⟨dr, hdr⟩ : ∃ dr, states'[r]? = some dr := ⟨_, List.getElem?_eq_getElem hrs⟩
      have hrinv : dr.invoked = false := by
        have := (hinv' r dr hdr).1
        simpa using this
      have hall : states'.all (·.invoked) = false := by
        rw [Bool.eq_false_iff]
        intro hc
        rw [List.all_eq_true] at hc
        have hmemr : dr ∈ states' := by
          obtain ⟨hlt, he⟩ := List.getElem?_eq_some_iff.mp hdr
          exact he ▸ List.getElem_mem hlt
        have := hc dr hmemr
        rw [hrinv] at this
        exact Bool.false_ne_true this
      simp only [settleAll, onDeferResolveEnd, hd, hnotinv, Bool.false_eq_true, if_false,
        ← hv, ← hs, hall]
      exact ih states' (by simp) hndc.2
        (fun x hx => hbound x (List.mem_cons_of_mem _ hx)) hlen' hinv'

/-- C8 (amended): for a run of K ≥ 1 bare defers (no explicit wait steps)
that all eventually settle successfully, *provided at least one defer is
still unsettled when the main sequence reaches the end of the step list*:
the run's result is the single defer's settled value when K = 1 and the
declaration-ordered list of all settled values when K ≥ 2, regardless of
the order in which the outstanding defers settle.  If every defer has
already settled by the time the end of the step list is reached, the run
instead completes with the threaded step result, which is undefined for a
bare-defer run (see the counterexample). -/
theorem c8_late_defer_results_in_declaration_order (vals : List Val) (late : List Nat)
    (hne : late ≠ []) (hnd : late.Nodup) (hbound : ∀ i ∈ late, i < vals.length) :
    bareDeferRun vals late = some (none, collapseResults vals) := by
  have hlen : ((List.range vals.length).map (fun i =>
      if i ∈ late then ({ invoked := false, result := .undef } : DeferSt)
      else { invoked := true, result := vals[i]?.getD .undef })).length = vals.length := by
    simp
  have hinv : ∀ j d, ((List.range vals.length).map (fun i =>
      if i ∈ late then ({ invoked := false, result := .undef } : DeferSt)
      else { invoked := true, result := vals[i]?.getD .undef }))[j]? = some d →
      (d.invoked = !decide (j ∈ late)) ∧ (d.invoked = true → vals[j]? = some d.result) := by
    intro j d hj
    rw [List.getElem?_map] at hj
    by_cases hjl : j < vals.length
    · rw [List.getElem?_range hjl] at hj
      simp only [Option.map_some', Option.some.injEq] at hj
      subst hj
      by_cases hjm : j ∈ late
      · simp [hjm]
      · constructor
        · simp [hjm]
        · intro _
          rw [List.getElem?_eq_getElem hjl]
          simp [hjm]
    · rw [List.getElem?_eq_none_iff.mpr (by simpa using hjl)] at hj
      simp at hj
  obtain ⟨i0, hi0⟩ : ∃ i0, i0 ∈ late := by
    cases late with
    | nil => exact absurd rfl hne
    | cons a l => exact ⟨a, List.mem_cons_self a l⟩
  have hi0l : i0 < vals.length := hbound i0 hi0
  have hallF : ((List.range vals.length).map (fun i =>
      if i ∈ late then ({ invoked := false, result := .undef } : DeferSt)
      else { invoked := true, result := vals[i]?.getD .undef })).all (·.invoked) = false := by
    rw [Bool.eq_false_iff]
    intro hc
    rw [List.all_eq_true] at hc
    have hmem : ({ invoked := false, result := .undef } : DeferSt) ∈
        (List.range vals.length).map (fun i =>
          if i ∈ late then ({ invoked := false, result := .undef } : DeferSt)
          else { invoked := true, result := vals[i]?.getD .undef }) := by
      refine List.mem_map.mpr ⟨i0, List.mem_range.mpr hi0l, ?_⟩
      simp [hi0]
    have := hc _ hmem
    exact Bool.false_ne_true this
  simp only [bareDeferRun, hallF, Bool.false_eq_true, if_false]
  exact settleAll_spec vals late _ hne hnd hbound hlen hinv

/-- Witness for `c8_late_defer_results_in_declaration_order`: two defers
settling in reverse declaration order still yield the declaration-ordered
list. -/
theorem c8_late_defer_results_in_declaration_order_witness :
    bareDeferRun [.str "done1", .str "done2"] [1, 0]
      = some (none, collapseResults [.str "done1", .str "done2"]) :=
  c8_late_defer_results_in_declaration_order [.str "done1", .str "done2"] [1, 0]
    (by decide) (by decide) (by decide)

end RunVerify
